import Mathlib

/-!
Verification of the directed-graph container (the untyped `Graph` class and its
typed sibling in the same repository).  Node and edge keys are JavaScript
strings, modelled as lists of characters; each internal index of the class is a
JavaScript `Map`, modelled as an insertion-ordered association list whose `set`
replaces in place and whose `delete` filters the key out.  Node and edge
payloads are generic; a stored payload of `none` models the `null` that the
class stores when the caller omits the value (`value ?? null`), while an
absent key models `undefined` lookups.
-/

/-- A JavaScript string key (node id or composed edge id). -/
abbrev Key := List Char

/-- The `IEdge` record `{ v, w }` of the source: an ordered pair of node keys. -/
structure IEdge where
  v : Key
  w : Key
deriving DecidableEq

/-- Lookup in an insertion-ordered map, `Map.prototype.get`: `none` models
`undefined`. -/
def mget [DecidableEq α] : List (α × β) → α → Option β
  | [], _ => none
  | p :: m, k => if p.1 = k then some p.2 else mget m k

/-- Membership test, `Map.prototype.has`. -/
def mhas [DecidableEq α] (m : List (α × β)) (k : α) : Bool :=
  (mget m k).isSome

/-- Replace the value stored under a present key, keeping its position. -/
def mreplace [DecidableEq α] (m : List (α × β)) (k : α) (v : β) : List (α × β) :=
  m.map (fun p => if p.1 = k then (k, v) else p)

/-- `Map.prototype.set`: replace in place when the key is present, otherwise
append at the end (JavaScript maps iterate in insertion order). -/
def mset [DecidableEq α] (m : List (α × β)) (k : α) (v : β) : List (α × β) :=
  if mhas m k then mreplace m k v else m ++ [(k, v)]

/-- `Map.prototype.delete`: drop the entry of the key. -/
def mdel [DecidableEq α] (m : List (α × β)) (k : α) : List (α × β) :=
  m.filter (fun p => decide (p.1 ≠ k))

/-- The keys of a map in insertion order, `Map.prototype.keys`. -/
def mkeys (m : List (α × β)) : List α :=
  m.map Prod.fst

/-- The `X.get(k)?.mutate()` pattern of the source: apply an in-place update to
the inner map stored under `k`, doing nothing when `k` is absent. -/
def updMap [DecidableEq α] (outer : List (α × β)) (k : α) (f : β → β) :
    List (α × β) :=
  match mget outer k with
  | some m => mset outer k (f m)
  | none => outer

/-- The constant `EDGE_KEY_DELIM = '\x01'` of the source. -/
def EDGE_KEY_DELIM : Char := Char.ofNat 1

/-- `edgeArgsToId (v, w) = v + EDGE_KEY_DELIM + w + EDGE_KEY_DELIM`. -/
def edgeArgsToId (v w : Key) : Key :=
  v ++ EDGE_KEY_DELIM :: (w ++ [EDGE_KEY_DELIM])

/-- `isEmptyMap` from `util.ts`: an absent map counts as empty. -/
def isEmptyMap (m : Option (List (α × β))) : Bool :=
  match m with
  | none => true
  | some mm => mm.isEmpty

/-- `incrementOrInitEntry`: `if (count) set(k, count + 1) else set(k, 1)`;
an absent entry reads as `undefined` and `0` is falsy, so both initialise
to `1`.  Counts are JavaScript numbers, modelled as integers. -/
def incrementOrInitEntry (m : List (Key × Int)) (k : Key) : List (Key × Int) :=
  let count := (mget m k).getD 0
  if count ≠ 0 then mset m k (count + 1) else mset m k 1

/-- `decrementOrRemoveEntry`: `count = get(k) ?? 1`; deletes the entry when
`count - 1 === 0` and otherwise leaves the map untouched (the decremented
value is never written back). -/
def decrementOrRemoveEntry (m : List (Key × Int)) (k : Key) : List (Key × Int) :=
  let count := (mget m k).getD 1
  if count - 1 = 0 then mdel m k else m

/-- The state of the `Graph` class: graph label, node table, reverse and
forward adjacency (`_in`, `_out`), predecessor and successor count maps, edge
table, edge label table and both counters. -/
structure Graph (V E : Type) where
  label? : Option (List Char)
  nodesT : List (Key × Option V)
  inT : List (Key × List (Key × IEdge))
  outT : List (Key × List (Key × IEdge))
  predsT : List (Key × List (Key × Int))
  succsT : List (Key × List (Key × Int))
  edgesT : List (Key × IEdge)
  edgeLabelsT : List (Key × Option E)
  nodeCountT : Int
  edgeCountT : Int
deriving DecidableEq

/-- The constructor: all indices empty, both counters zero, the label taken
from the options. -/
def Graph.new (label : Option (List Char)) : Graph V E :=
  ⟨label, [], [], [], [], [], [], [], 0, 0⟩

/-- `label()`. -/
def Graph.label (g : Graph V E) : Option (List Char) :=
  g.label?

/-- `nodeCount()`. -/
def Graph.nodeCount (g : Graph V E) : Int :=
  g.nodeCountT

/-- `edgeCount()`. -/
def Graph.edgeCount (g : Graph V E) : Int :=
  g.edgeCountT

/-- `node(v)`: `undefined` for an absent node is the outer `none`; a node
stored without a value yields `some none`. -/
def Graph.node (g : Graph V E) (v : Key) : Option (Option V) :=
  mget g.nodesT v

/-- `setNode(v, value?)`: overwrite the value if the node exists, otherwise
insert it with empty adjacency entries and bump the node counter. -/
def Graph.setNode (g : Graph V E) (v : Key) (value : Option V) : Graph V E :=
  if mhas g.nodesT v then
    { g with nodesT := mset g.nodesT v value }
  else
    { g with
      nodesT := mset g.nodesT v value
      inT := mset g.inT v []
      predsT := mset g.predsT v []
      outT := mset g.outT v []
      succsT := mset g.succsT v []
      nodeCountT := g.nodeCountT + 1 }

/-- `hasNode(v)`. -/
def Graph.hasNode (g : Graph V E) (v : Key) : Bool :=
  mhas g.nodesT v

/-- `removeEdge(v, w)`: a no-op when the edge table has no entry for the
composed id; otherwise deletes the edge label and edge-table entries, applies
`decrementOrRemoveEntry` to the predecessor map of `w` and the successor map
of `v`, deletes the id from the reverse adjacency of `w` and — as in the
source — from the forward adjacency of `w` (not of `v`), and decrements the
edge counter. -/
def Graph.removeEdge (g : Graph V E) (v w : Key) : Graph V E :=
  let e := edgeArgsToId v w
  if (mget g.edgesT e).isSome then
    { g with
      edgeLabelsT := mdel g.edgeLabelsT e
      edgesT := mdel g.edgesT e
      predsT := updMap g.predsT w (fun m => decrementOrRemoveEntry m v)
      succsT := updMap g.succsT v (fun m => decrementOrRemoveEntry m w)
      inT := updMap g.inT w (fun m => mdel m e)
      outT := updMap g.outT w (fun m => mdel m e)
      edgeCountT := g.edgeCountT - 1 }
  else g

/-- One pass of `removeNode`'s edge-cleanup loops: for each id in the
snapshot, remove the edge it denotes if the edge table still has it.  The
source iterates the live key iterator of one inner adjacency map; each loop
body deletes at most the currently visited key from that map, so iterating a
snapshot of its keys is equivalent. -/
def removeIncident (g0 : Graph V E) (ks : List Key) : Graph V E :=
  ks.foldl
    (fun g key =>
      match mget g.edgesT key with
      | some edge => g.removeEdge edge.v edge.w
      | none => g)
    g0

/-- `removeNode(v)`: a no-op when the node is absent; otherwise delete the
node-table entry, remove the edges recorded in the node's reverse adjacency,
delete its reverse-adjacency and predecessor entries, remove the edges
recorded in its forward adjacency, delete its forward-adjacency and successor
entries, and decrement the node counter. -/
def Graph.removeNode (g : Graph V E) (v : Key) : Graph V E :=
  if mhas g.nodesT v then
    let g1 : Graph V E := { g with nodesT := mdel g.nodesT v }
    let g2 := removeIncident g1 (mkeys ((mget g1.inT v).getD []))
    let g3 : Graph V E :=
      { g2 with inT := mdel g2.inT v, predsT := mdel g2.predsT v }
    let g4 := removeIncident g3 (mkeys ((mget g3.outT v).getD []))
    { g4 with
      outT := mdel g4.outT v
      succsT := mdel g4.succsT v
      nodeCountT := g4.nodeCountT - 1 }
  else g

/-- `nodes()`: the node ids in insertion order. -/
def Graph.nodes (g : Graph V E) : List Key :=
  mkeys g.nodesT

/-- `edges()`: the stored edge records in insertion order. -/
def Graph.edges (g : Graph V E) : List IEdge :=
  g.edgesT.map Prod.snd

/-- `edge(v, w)`: the edge label, `none` when the pair has no edge. -/
def Graph.edge (g : Graph V E) (v w : Key) : Option (Option E) :=
  mget g.edgeLabelsT (edgeArgsToId v w)

/-- `hasEdge(v, w)`. -/
def Graph.hasEdge (g : Graph V E) (v w : Key) : Bool :=
  mhas g.edgeLabelsT (edgeArgsToId v w)

/-- `setEdge(v, w, value?)`: overwrite only the label when the composed id is
already present; otherwise upsert both endpoints via `setNode`, store the
label and the edge record, bump the predecessor count of `w` for `v` and the
successor count of `v` for `w`, record the edge in the reverse adjacency of
`w` and the forward adjacency of `v`, and increment the edge counter. -/
def Graph.setEdge (g : Graph V E) (v w : Key) (value : Option E) : Graph V E :=
  let e := edgeArgsToId v w
  if mhas g.edgeLabelsT e then
    { g with edgeLabelsT := mset g.edgeLabelsT e value }
  else
    let g1 := (g.setNode v none).setNode w none
    let edgeObj : IEdge := ⟨v, w⟩
    { g1 with
      edgeLabelsT := mset g1.edgeLabelsT e value
      edgesT := mset g1.edgesT e edgeObj
      predsT := updMap g1.predsT w (fun m => incrementOrInitEntry m v)
      succsT := updMap g1.succsT v (fun m => incrementOrInitEntry m w)
      inT := updMap g1.inT w (fun m => mset m e edgeObj)
      outT := updMap g1.outT v (fun m => mset m e edgeObj)
      edgeCountT := g1.edgeCountT + 1 }

/-- `sources()` of the untyped variant: nodes whose reverse-adjacency map is
empty. -/
def Graph.sources (g : Graph V E) : List Key :=
  g.nodes.filter (fun node => isEmptyMap (mget g.inT node))

/-- `sinks()`: nodes whose forward-adjacency map is empty. -/
def Graph.sinks (g : Graph V E) : List Key :=
  g.nodes.filter (fun node => isEmptyMap (mget g.outT node))

/-- `sources()` of the typed variant of the source tree, which filters on the
forward adjacency — the same check as `sinks()`. -/
def sourcesTyped (g : Graph V E) : List Key :=
  g.nodes.filter (fun node => isEmptyMap (mget g.outT node))

/-- `predecessors(v)`: the keys of the predecessor count map, `none` when the
node is unknown. -/
def Graph.predecessors (g : Graph V E) (v : Key) : Option (List Key) :=
  (mget g.predsT v).map mkeys

/-- `successors(v)`. -/
def Graph.successors (g : Graph V E) (v : Key) : Option (List Key) :=
  (mget g.succsT v).map mkeys

/-- Helper of `union`: deduplicate keeping first occurrences, the order of
`[...new Set(merged)]`. -/
def dedupFirstAux : List Key → List Key → List Key
  | [], _ => []
  | a :: l, seen => if a ∈ seen then dedupFirstAux l seen else a :: dedupFirstAux l (a :: seen)

/-- `union(a, b)`: the concatenation with duplicates removed, keeping first
occurrences. -/
def union (a b : List Key) : List Key :=
  dedupFirstAux (a ++ b) []

/-- `neighbors(v)`: the union of predecessors and successors; `undefined`
when the node is unknown (an empty predecessor array is truthy and is kept). -/
def Graph.neighbors (g : Graph V E) (v : Key) : Option (List Key) :=
  match g.predecessors v with
  | some preds => some (union preds ((g.successors v).getD []))
  | none => none

/-- `isLeaf(v)`: true exactly when the successor array exists and is empty. -/
def Graph.isLeaf (g : Graph V E) (v : Key) : Bool :=
  match g.successors v with
  | some succs => succs.isEmpty
  | none => false

/-- `inEdges(v, w?)`: the records of the reverse adjacency of `v`, optionally
filtered to those whose source is `w`; `none` when `v` is unknown. -/
def Graph.inEdges (g : Graph V E) (v : Key) (w : Option Key) : Option (List IEdge) :=
  match mget g.inT v with
  | none => none
  | some m =>
    some ((m.map Prod.snd).filter (fun edge =>
      match w with
      | some w' => decide (edge.v = w')
      | none => true))

/-- `outEdges(v, w?)`. -/
def Graph.outEdges (g : Graph V E) (v : Key) (w : Option Key) : Option (List IEdge) :=
  match mget g.outT v with
  | none => none
  | some m =>
    some ((m.map Prod.snd).filter (fun edge =>
      match w with
      | some w' => decide (edge.w = w')
      | none => true))

/-- `nodeEdges(v, w?)`: in-edges followed by out-edges. -/
def Graph.nodeEdges (g : Graph V E) (v : Key) (w : Option Key) : Option (List IEdge) :=
  match g.inEdges v w with
  | none => none
  | some ins => some (ins ++ (g.outEdges v w).getD [])

/-- One public mutation of the container, for stating properties of all
operation sequences. -/
inductive Op (V E : Type) where
  | setNode (k : Key) (val : Option V)
  | removeNode (k : Key)
  | setEdge (v w : Key) (val : Option E)
  | removeEdge (v w : Key)

/-- Apply one mutation. -/
def applyOp (g : Graph V E) : Op V E → Graph V E
  | .setNode k val => g.setNode k val
  | .removeNode k => g.removeNode k
  | .setEdge v w val => g.setEdge v w val
  | .removeEdge v w => g.removeEdge v w

/-- The state after a sequence of mutations on a fresh graph. -/
def run (lab : Option (List Char)) (ops : List (Op V E)) : Graph V E :=
  ops.foldl applyOp (Graph.new lab)

/-- A key that avoids the edge-id delimiter character, so that composed edge
ids decompose uniquely. -/
def cleanKey (k : Key) : Prop :=
  EDGE_KEY_DELIM ∉ k

instance (k : Key) : Decidable (cleanKey k) := by
  unfold cleanKey
  infer_instance

/-- A mutation whose keys all avoid the delimiter character. -/
def Op.clean : Op V E → Prop
  | .setNode k _ => cleanKey k
  | .removeNode k => cleanKey k
  | .setEdge v w _ => cleanKey v ∧ cleanKey w
  | .removeEdge v w => cleanKey v ∧ cleanKey w

instance (op : Op V E) : Decidable (Op.clean op) := by
  cases op <;> (unfold Op.clean; infer_instance)

/-- Bookkeeping facts preserved by every operation sequence, whatever the
keys: the adjacency and count maps are keyed exactly by the present nodes,
the edge-label and edge tables share their keys, edge-table entries are keyed
by the composed id of their endpoint pair, the key lists are duplicate free,
the counters equal the table sizes, and every stored adjacency count is
positive. -/
structure InvA (g : Graph V E) : Prop where
  dom_in : mkeys g.inT = mkeys g.nodesT
  dom_out : mkeys g.outT = mkeys g.nodesT
  dom_preds : mkeys g.predsT = mkeys g.nodesT
  dom_succs : mkeys g.succsT = mkeys g.nodesT
  labels_edges : mkeys g.edgeLabelsT = mkeys g.edgesT
  nodes_nodup : (mkeys g.nodesT).Nodup
  edges_nodup : (mkeys g.edgesT).Nodup
  edges_shape : ∀ p ∈ g.edgesT, p.1 = edgeArgsToId p.2.v p.2.w
  ncount : g.nodeCountT = ((mkeys g.nodesT).length : Int)
  ecount : g.edgeCountT = ((mkeys g.edgesT).length : Int)
  preds_pos : ∀ b m, mget g.predsT b = some m → ∀ q ∈ m, 1 ≤ q.2
  succs_pos : ∀ a m, mget g.succsT a = some m → ∀ q ∈ m, 1 ≤ q.2

/-- The part of `InvA` that `removeEdge` preserves whatever the state of the
node table: used to carry the counter and count-map facts through the edge
cleanup loops of `removeNode`. -/
structure InvACore (g : Graph V E) : Prop where
  labels_edges : mkeys g.edgeLabelsT = mkeys g.edgesT
  edges_nodup : (mkeys g.edgesT).Nodup
  edges_shape : ∀ p ∈ g.edgesT, p.1 = edgeArgsToId p.2.v p.2.w
  ecount : g.edgeCountT = ((mkeys g.edgesT).length : Int)
  preds_pos : ∀ b m, mget g.predsT b = some m → ∀ q ∈ m, 1 ≤ q.2
  succs_pos : ∀ a m, mget g.succsT a = some m → ∀ q ∈ m, 1 ≤ q.2

/-- Consistency of the edge-indexed structures for delimiter-free keys,
stable under `removeEdge` and hence under the edge-cleanup loops of
`removeNode`: edge labels and edges share keys, edge entries are keyed by the
id of their (delimiter-free) pair, the reverse adjacency records exactly the
present edges, the forward adjacency records at least the present edges under
well-shaped entries, and the count maps record exactly the in- and
out-neighbours of each present edge with count one. -/
structure InvC (g : Graph V E) : Prop where
  labels_edges : mkeys g.edgeLabelsT = mkeys g.edgesT
  edges_nodup : (mkeys g.edgesT).Nodup
  edges_shape : ∀ p ∈ g.edgesT, p.1 = edgeArgsToId p.2.v p.2.w
  edges_clean : ∀ p ∈ g.edgesT, cleanKey p.2.v ∧ cleanKey p.2.w
  in_sound : ∀ b m, mget g.inT b = some m → ∀ p ∈ m, p ∈ g.edgesT ∧ p.2.w = b
  in_comp : ∀ p ∈ g.edgesT, ∃ m, mget g.inT p.2.w = some m ∧ p ∈ m
  out_shape : ∀ a m, mget g.outT a = some m → ∀ p ∈ m,
    p.2.v = a ∧ p.1 = edgeArgsToId p.2.v p.2.w ∧ cleanKey p.2.v ∧ cleanKey p.2.w
  out_comp : ∀ p ∈ g.edgesT, ∃ m, mget g.outT p.2.v = some m ∧ p ∈ m
  preds_sound : ∀ b m, mget g.predsT b = some m → ∀ q ∈ m,
    q.2 = 1 ∧ mget g.edgesT (edgeArgsToId q.1 b) = some ⟨q.1, b⟩
  preds_comp : ∀ p ∈ g.edgesT, ∀ m, mget g.predsT p.2.w = some m → p.2.v ∈ mkeys m
  succs_sound : ∀ a m, mget g.succsT a = some m → ∀ q ∈ m,
    q.2 = 1 ∧ mget g.edgesT (edgeArgsToId a q.1) = some ⟨a, q.1⟩
  succs_comp : ∀ p ∈ g.edgesT, ∀ m, mget g.succsT p.2.v = some m → p.2.w ∈ mkeys m

/-- Full consistency of a graph state built with delimiter-free keys: the
edge-level facts of `InvC` together with the node-level facts that the
adjacency and count maps are keyed by the present nodes, node keys are
delimiter free, and every edge endpoint is a present node. -/
structure InvB (g : Graph V E) : Prop where
  core : InvC g
  dom_in : mkeys g.inT = mkeys g.nodesT
  dom_out : mkeys g.outT = mkeys g.nodesT
  dom_preds : mkeys g.predsT = mkeys g.nodesT
  dom_succs : mkeys g.succsT = mkeys g.nodesT
  nodes_clean : ∀ k ∈ mkeys g.nodesT, cleanKey k
  edges_endpoints : ∀ p ∈ g.edgesT, p.2.v ∈ mkeys g.nodesT ∧ p.2.w ∈ mkeys g.nodesT

/-- State-passing form of `label()`: the method body only reads fields, so
the receiver comes back unchanged. -/
def Graph.labelM (g : Graph V E) : Option (List Char) × Graph V E :=
  (g.label, g)

/-- State-passing form of `nodeCount()`. -/
def Graph.nodeCountM (g : Graph V E) : Int × Graph V E :=
  (g.nodeCount, g)

/-- State-passing form of `edgeCount()`. -/
def Graph.edgeCountM (g : Graph V E) : Int × Graph V E :=
  (g.edgeCount, g)

/-- State-passing form of `node(v)`. -/
def Graph.nodeM (g : Graph V E) (v : Key) : Option (Option V) × Graph V E :=
  (g.node v, g)

/-- State-passing form of `hasNode(v)`. -/
def Graph.hasNodeM (g : Graph V E) (v : Key) : Bool × Graph V E :=
  (g.hasNode v, g)

/-- State-passing form of `edge(v, w)`. -/
def Graph.edgeM (g : Graph V E) (v w : Key) : Option (Option E) × Graph V E :=
  (g.edge v w, g)

/-- State-passing form of `hasEdge(v, w)`. -/
def Graph.hasEdgeM (g : Graph V E) (v w : Key) : Bool × Graph V E :=
  (g.hasEdge v w, g)

/-- State-passing form of `edges()`. -/
def Graph.edgesM (g : Graph V E) : List IEdge × Graph V E :=
  (g.edges, g)

/-- State-passing form of `nodes()`. -/
def Graph.nodesM (g : Graph V E) : List Key × Graph V E :=
  (g.nodes, g)

/-- State-passing form of `sources()`. -/
def Graph.sourcesM (g : Graph V E) : List Key × Graph V E :=
  (g.sources, g)

/-- State-passing form of `sinks()`. -/
def Graph.sinksM (g : Graph V E) : List Key × Graph V E :=
  (g.sinks, g)

/-- State-passing form of `predecessors(v)`. -/
def Graph.predecessorsM (g : Graph V E) (v : Key) : Option (List Key) × Graph V E :=
  (g.predecessors v, g)

/-- State-passing form of `successors(v)`. -/
def Graph.successorsM (g : Graph V E) (v : Key) : Option (List Key) × Graph V E :=
  (g.successors v, g)

/-- State-passing form of `neighbors(v)`. -/
def Graph.neighborsM (g : Graph V E) (v : Key) : Option (List Key) × Graph V E :=
  (g.neighbors v, g)

/-- State-passing form of `isLeaf(v)`. -/
def Graph.isLeafM (g : Graph V E) (v : Key) : Bool × Graph V E :=
  (g.isLeaf v, g)

/-- State-passing form of `inEdges(v, w?)`. -/
def Graph.inEdgesM (g : Graph V E) (v : Key) (w : Option Key) :
    Option (List IEdge) × Graph V E :=
  (g.inEdges v w, g)

/-- State-passing form of `outEdges(v, w?)`. -/
def Graph.outEdgesM (g : Graph V E) (v : Key) (w : Option Key) :
    Option (List IEdge) × Graph V E :=
  (g.outEdges v w, g)

/-- State-passing form of `nodeEdges(v, w?)`. -/
def Graph.nodeEdgesM (g : Graph V E) (v : Key) (w : Option Key) :
    Option (List IEdge) × Graph V E :=
  (g.nodeEdges v w, g)


/-- The nodes of a graph with no stored edge leaving them: the zero
out-degree nodes of the edge table. -/
def zeroOutDegreeNodes (g : Graph V E) : List Key :=
  g.nodes.filter (fun n => g.edgesT.all (fun p => decide (p.2.v ≠ n)))

/-- The nodes of a graph with no stored edge entering them: the zero
in-degree nodes of the edge table. -/
def zeroInDegreeNodes (g : Graph V E) : List Key :=
  g.nodes.filter (fun n => g.edgesT.all (fun p => decide (p.2.w ≠ n)))

/-- A two-node graph with the single edge a -> b. -/
def gChain : Graph Nat Nat :=
  (Graph.new none).setEdge ['a'] ['b'] none

/-- The graph a -> b after `removeEdge('a', 'b')`. -/
def gChainRemoved : Graph Nat Nat :=
  gChain.removeEdge ['a'] ['b']

/-- A two-node graph with the single edge c -> d. -/
def gCD : Graph Nat Nat :=
  (Graph.new none).setEdge ['c'] ['d'] none

/-- The graph c -> d after `removeEdge('c', 'd')`. -/
def gCDRemoved : Graph Nat Nat :=
  gCD.removeEdge ['c'] ['d']

/-- A run using keys containing the delimiter character: insert the edge
("y\x01z", "c"), remove via the colliding pair ("y", "z\x01c"), then remove
the node "y\x01z". -/
def gStale : Graph Nat Nat :=
  run none
    [Op.setEdge ['y', EDGE_KEY_DELIM, 'z'] ['c'] none,
     Op.removeEdge ['y'] ['z', EDGE_KEY_DELIM, 'c'],
     Op.removeNode ['y', EDGE_KEY_DELIM, 'z']]

section MapLemmas

variable {α β : Type _} [DecidableEq α]

theorem mkeys_nil : mkeys ([] : List (α × β)) = [] := rfl

theorem mkeys_cons (p : α × β) (m : List (α × β)) :
    mkeys (p :: m) = p.1 :: mkeys m := rfl

theorem mkeys_append (m m' : List (α × β)) :
    mkeys (m ++ m') = mkeys m ++ mkeys m' :=
  List.map_append _ _ _

theorem mdel_nil (k : α) : mdel ([] : List (α × β)) k = [] := rfl

theorem mdel_cons (p : α × β) (m : List (α × β)) (k : α) :
    mdel (p :: m) k = if p.1 = k then mdel m k else p :: mdel m k := by
  by_cases hp : p.1 = k <;> simp [mdel, List.filter_cons, hp]

theorem mdel_append (m m' : List (α × β)) (k : α) :
    mdel (m ++ m') k = mdel m k ++ mdel m' k := by
  simp [mdel]

theorem mreplace_cons (p : α × β) (m : List (α × β)) (k : α) (v : β) :
    mreplace (p :: m) k v =
      (if p.1 = k then (k, v) else p) :: mreplace m k v := rfl

theorem mget_append_left {m : List (α × β)} {k : α} {v : β}
    (h : mget m k = some v) (m' : List (α × β)) : mget (m ++ m') k = some v := by
  induction m with
  | nil => simp [mget] at h
  | cons p m ih =>
    by_cases hp : p.1 = k
    · simp only [mget, if_pos hp] at h
      simp only [List.cons_append, mget, if_pos hp, h]
    · simp only [mget, if_neg hp] at h
      simp only [List.cons_append, mget, if_neg hp]
      exact ih h

theorem mget_append_right {m : List (α × β)} {k : α}
    (h : mget m k = none) (m' : List (α × β)) : mget (m ++ m') k = mget m' k := by
  induction m with
  | nil => simp
  | cons p m ih =>
    by_cases hp : p.1 = k
    · simp [mget, hp] at h
    · simp only [mget, if_neg hp] at h
      simp only [List.cons_append, mget, if_neg hp]
      exact ih h

theorem mget_eq_none_iff {m : List (α × β)} {k : α} :
    mget m k = none ↔ k ∉ mkeys m := by
  induction m with
  | nil => simp [mget, mkeys]
  | cons p m ih =>
    by_cases hp : p.1 = k
    · simp [mget, mkeys, hp]
    · simp [mget, mkeys, hp, ih, Ne.symm hp]

theorem mhas_iff_mem {m : List (α × β)} {k : α} :
    mhas m k = true ↔ k ∈ mkeys m := by
  rcases h : mget m k with _ | v
  · simp [mhas, h, mget_eq_none_iff.mp h]
  · have : k ∈ mkeys m := by
      by_contra hk
      rw [mget_eq_none_iff.mpr hk] at h
      cases h
    simp [mhas, h, this]

theorem mhas_eq_false_iff {m : List (α × β)} {k : α} :
    mhas m k = false ↔ k ∉ mkeys m := by
  rw [← mhas_iff_mem]
  cases mhas m k <;> simp

theorem mem_of_mget {m : List (α × β)} {k : α} {v : β}
    (h : mget m k = some v) : (k, v) ∈ m := by
  induction m with
  | nil => simp [mget] at h
  | cons p m ih =>
    by_cases hp : p.1 = k
    · simp only [mget, if_pos hp] at h
      have hv : p.2 = v := by injection h
      have : (k, v) = p := by rw [← hp, ← hv]
      rw [this]
      exact List.mem_cons_self _ _
    · simp only [mget, if_neg hp] at h
      exact List.mem_cons_of_mem _ (ih h)

theorem mget_isSome_of_mem_mkeys {m : List (α × β)} {k : α}
    (h : k ∈ mkeys m) : (mget m k).isSome := by
  rcases hg : mget m k with _ | v
  · exact absurd h (mget_eq_none_iff.mp hg)
  · rfl

theorem mget_mreplace_self (m : List (α × β)) (k : α) (v : β) :
    mget (mreplace m k v) k = (mget m k).map (fun _ => v) := by
  induction m with
  | nil => simp [mget, mreplace]
  | cons p m ih =>
    rw [mreplace_cons]
    by_cases hp : p.1 = k
    · simp [mget, hp]
    · simp only [if_neg hp, mget, if_neg hp]
      exact ih

theorem mget_mreplace_ne {k' k : α} (h : k' ≠ k) (m : List (α × β)) (v : β) :
    mget (mreplace m k v) k' = mget m k' := by
  induction m with
  | nil => simp [mreplace]
  | cons p m ih =>
    rw [mreplace_cons]
    by_cases hp : p.1 = k
    · have hp' : ¬ p.1 = k' := by rw [hp]; exact Ne.symm h
      simp only [if_pos hp, mget, if_neg (Ne.symm h), if_neg hp']
      exact ih
    · simp only [if_neg hp, mget]
      by_cases hp' : p.1 = k'
      · simp [hp']
      · simp only [if_neg hp']
        exact ih

theorem mreplace_of_not_mhas {m : List (α × β)} {k : α}
    (h : mhas m k = false) (v : β) : mreplace m k v = m := by
  have hk : k ∉ mkeys m := mhas_eq_false_iff.mp h
  refine List.map_congr_left (fun p hp => ?_) |>.trans (List.map_id m)
  have hne : p.1 ≠ k := by
    intro he
    refine hk ?_
    rw [← he]
    exact List.mem_map.mpr ⟨p, hp, rfl⟩
  simp [hne]

theorem mget_mset_self (m : List (α × β)) (k : α) (v : β) :
    mget (mset m k v) k = some v := by
  unfold mset
  cases hh : mhas m k
  · simp only [Bool.false_eq_true, if_false]
    rw [mget_append_right (mget_eq_none_iff.mpr (mhas_eq_false_iff.mp hh))]
    simp [mget]
  · simp only [if_true]
    rcases hg : mget m k with _ | v₀
    · rw [mget_eq_none_iff] at hg
      rw [← mhas_eq_false_iff] at hg
      rw [hg] at hh
      cases hh
    · simp [mget_mreplace_self, hg]

theorem mget_mset_ne {k' k : α} (h : k' ≠ k) (m : List (α × β)) (v : β) :
    mget (mset m k v) k' = mget m k' := by
  unfold mset
  cases hh : mhas m k
  · simp only [Bool.false_eq_true, if_false]
    rcases hg : mget m k' with _ | v'
    · rw [mget_append_right hg]
      simp [mget, Ne.symm h]
    · rw [mget_append_left hg]
  · simp only [if_true]
    exact mget_mreplace_ne h m v

theorem mhas_mset_self (m : List (α × β)) (k : α) (v : β) :
    mhas (mset m k v) k = true := by
  simp [mhas, mget_mset_self]

theorem mget_mdel_self (m : List (α × β)) (k : α) :
    mget (mdel m k) k = none := by
  induction m with
  | nil => simp [mdel, mget]
  | cons p m ih =>
    rw [mdel_cons]
    by_cases hp : p.1 = k
    · simpa [hp] using ih
    · simpa [mget, hp] using ih

theorem mget_mdel_ne {k' k : α} (h : k' ≠ k) (m : List (α × β)) :
    mget (mdel m k) k' = mget m k' := by
  induction m with
  | nil => simp [mdel]
  | cons p m ih =>
    rw [mdel_cons]
    by_cases hp : p.1 = k
    · have hp' : ¬ p.1 = k' := by rw [hp]; exact Ne.symm h
      simp only [if_pos hp, mget, if_neg hp']
      exact ih
    · by_cases hp' : p.1 = k'
      · simp [mget, hp, hp', h]
      · simp only [if_neg hp, mget, if_neg hp']
        exact ih

theorem mkeys_mreplace (m : List (α × β)) (k : α) (v : β) :
    mkeys (mreplace m k v) = mkeys m := by
  induction m with
  | nil => rfl
  | cons p m ih =>
    rw [mreplace_cons, mkeys_cons, mkeys_cons, ih]
    by_cases hp : p.1 = k <;> simp [hp]

theorem mkeys_mset_of_mhas {m : List (α × β)} {k : α} (h : mhas m k = true) (v : β) :
    mkeys (mset m k v) = mkeys m := by
  rw [mset, if_pos h, mkeys_mreplace]

theorem mkeys_mset_of_not_mhas {m : List (α × β)} {k : α} (h : mhas m k = false) (v : β) :
    mkeys (mset m k v) = mkeys m ++ [k] := by
  rw [mset, h]
  simp [mkeys]

theorem mkeys_mdel (m : List (α × β)) (k : α) :
    mkeys (mdel m k) = (mkeys m).filter (fun x => decide (x ≠ k)) := by
  induction m with
  | nil => rfl
  | cons p m ih =>
    rw [mdel_cons, mkeys_cons, List.filter_cons]
    by_cases hp : p.1 = k
    · simpa [hp] using ih
    · simp only [if_neg hp, mkeys_cons, ih]
      simp [hp]

theorem mem_mdel_iff {p : α × β} {m : List (α × β)} {k : α} :
    p ∈ mdel m k ↔ p ∈ m ∧ p.1 ≠ k := by
  simp [mdel]

theorem mem_of_mem_mset {p : α × β} {m : List (α × β)} {k : α} {v : β}
    (h : p ∈ mset m k v) : p ∈ m ∨ p = (k, v) := by
  unfold mset at h
  cases hh : mhas m k
  · rw [hh] at h
    simp only [Bool.false_eq_true, if_false, List.mem_append, List.mem_singleton] at h
    exact h
  · rw [hh, if_pos rfl] at h
    rcases List.mem_map.mp h with ⟨q, hq, hfq⟩
    by_cases hq1 : q.1 = k
    · rw [if_pos hq1] at hfq
      right
      exact hfq.symm
    · rw [if_neg hq1] at hfq
      left
      rwa [← hfq]

theorem mem_mset_self (m : List (α × β)) (k : α) (v : β) :
    (k, v) ∈ mset m k v :=
  mem_of_mget (mget_mset_self m k v)

theorem mem_mset_of_ne {p : α × β} {m : List (α × β)} {k : α}
    (h : p ∈ m) (hne : p.1 ≠ k) (v : β) : p ∈ mset m k v := by
  unfold mset
  cases hh : mhas m k
  · simp [h]
  · simp only [if_true, mreplace]
    refine List.mem_map.mpr ⟨p, h, ?_⟩
    simp [hne]

theorem mget_of_mem_nodup {m : List (α × β)} {k : α} {v : β}
    (hn : (mkeys m).Nodup) (h : (k, v) ∈ m) : mget m k = some v := by
  induction m with
  | nil => cases h
  | cons p m ih =>
    rw [mkeys_cons, List.nodup_cons] at hn
    rcases List.mem_cons.mp h with h | h
    · simp [← h, mget]
    · have hk : k ∈ mkeys m := List.mem_map.mpr ⟨(k, v), h, rfl⟩
      have hp : p.1 ≠ k := fun he => hn.1 (he ▸ hk)
      simp only [mget, if_neg hp]
      exact ih hn.2 h

theorem nodup_mkeys_mset {m : List (α × β)} {k : α}
    (hn : (mkeys m).Nodup) (v : β) : (mkeys (mset m k v)).Nodup := by
  cases hh : mhas m k
  · rw [mkeys_mset_of_not_mhas hh]
    have hk : k ∉ mkeys m := mhas_eq_false_iff.mp hh
    simp [List.nodup_append, hn, hk]
  · rwa [mkeys_mset_of_mhas hh]

theorem nodup_mkeys_mdel {m : List (α × β)} (k : α)
    (hn : (mkeys m).Nodup) : (mkeys (mdel m k)).Nodup := by
  rw [mkeys_mdel]
  exact hn.filter _

theorem length_filter_ne_of_nodup {l : List α} {a : α}
    (hn : l.Nodup) (h : a ∈ l) :
    (l.filter (fun x => decide (x ≠ a))).length + 1 = l.length := by
  induction l with
  | nil => cases h
  | cons x l ih =>
    rcases List.nodup_cons.mp hn with ⟨hx, hl⟩
    by_cases hxa : x = a
    · subst hxa
      have hrest : l.filter (fun y => decide (y ≠ x)) = l :=
        List.filter_eq_self.mpr (fun b hb => decide_eq_true (fun he => hx (he ▸ hb)))
      rw [List.filter_cons, if_neg (by simp), hrest, List.length_cons]
    · have ha : a ∈ l := by
        rcases List.mem_cons.mp h with h1 | h1
        · exact absurd h1.symm hxa
        · exact h1
      have hrec := ih hl ha
      rw [List.filter_cons, if_pos (decide_eq_true hxa), List.length_cons,
        List.length_cons]
      omega

theorem mdel_of_not_mhas {m : List (α × β)} {k : α}
    (h : mhas m k = false) : mdel m k = m := by
  have hk : k ∉ mkeys m := mhas_eq_false_iff.mp h
  refine List.filter_eq_self.mpr (fun p hp => ?_)
  exact decide_eq_true (fun he => hk (List.mem_map.mpr ⟨p, hp, he⟩))

theorem mdel_mreplace_self (m : List (α × β)) (k : α) (v : β) :
    mdel (mreplace m k v) k = mdel m k := by
  induction m with
  | nil => rfl
  | cons p m ih =>
    rw [mreplace_cons, mdel_cons, mdel_cons]
    by_cases hp : p.1 = k
    · simpa [hp] using ih
    · simpa [hp] using ih

theorem mdel_mset_self (m : List (α × β)) (k : α) (v : β) :
    mdel (mset m k v) k = mdel m k := by
  unfold mset
  cases hh : mhas m k
  · simp only [Bool.false_eq_true, if_false, mdel_append]
    rw [mdel_cons]
    simp [mdel]
  · simp only [if_true]
    exact mdel_mreplace_self m k v

theorem mreplace_mreplace_self (m : List (α × β)) (k : α) (v v' : β) :
    mreplace (mreplace m k v) k v' = mreplace m k v' := by
  unfold mreplace
  rw [List.map_map]
  refine List.map_congr_left (fun p _ => ?_)
  by_cases hp : p.1 = k <;> simp [hp]

theorem mset_mset_self (m : List (α × β)) (k : α) (v v' : β) :
    mset (mset m k v) k v' = mset m k v' := by
  have hh2 : mhas (mset m k v) k = true := mhas_mset_self m k v
  rw [mset, if_pos hh2]
  cases hh : mhas m k
  · rw [mset, hh, mset, hh]
    simp only [Bool.false_eq_true, if_false]
    unfold mreplace
    rw [List.map_append]
    congr 1
    · exact mreplace_of_not_mhas hh v'
    · simp
  · rw [mset, if_pos hh, mset, if_pos hh, mreplace_mreplace_self]

theorem mget_updMap_self (m : List (α × List γ)) (k : α) (f : List γ → List γ) :
    mget (updMap m k f) k = (mget m k).map f := by
  unfold updMap
  rcases h : mget m k with _ | mm
  · simp [h]
  · simp [mget_mset_self]

theorem mget_updMap_ne {k' k : α} (h : k' ≠ k) {γ : Type _} (m : List (α × List γ))
    (f : List γ → List γ) : mget (updMap m k f) k' = mget m k' := by
  unfold updMap
  rcases hg : mget m k with _ | mm
  · rfl
  · exact mget_mset_ne h m (f mm)

theorem mkeys_updMap (m : List (α × List γ)) (k : α) (f : List γ → List γ) :
    mkeys (updMap m k f) = mkeys m := by
  unfold updMap
  rcases hg : mget m k with _ | mm
  · rfl
  · exact mkeys_mset_of_mhas (by simp [mhas, hg]) (f mm)

end MapLemmas

section IdLemmas

theorem append_cons_inj {a c x y : Key} (ha : EDGE_KEY_DELIM ∉ a)
    (hc : EDGE_KEY_DELIM ∉ c)
    (h : a ++ EDGE_KEY_DELIM :: x = c ++ EDGE_KEY_DELIM :: y) :
    a = c ∧ x = y := by
  induction a generalizing c with
  | nil =>
    cases c with
    | nil =>
      simp only [List.nil_append, List.cons.injEq] at h
      exact ⟨rfl, h.2⟩
    | cons z c' =>
      simp only [List.nil_append, List.cons_append, List.cons.injEq] at h
      exfalso
      refine hc ?_
      rw [h.1]
      exact List.mem_cons_self z c'
  | cons u a' ih =>
    cases c with
    | nil =>
      simp only [List.cons_append, List.nil_append, List.cons.injEq] at h
      exfalso
      refine ha ?_
      rw [← h.1]
      exact List.mem_cons_self u a'
    | cons z c' =>
      simp only [List.cons_append, List.cons.injEq] at h
      obtain ⟨h1, h2⟩ := h
      have ha' : EDGE_KEY_DELIM ∉ a' := fun hm => ha (List.mem_cons_of_mem _ hm)
      have hc' : EDGE_KEY_DELIM ∉ c' := fun hm => hc (List.mem_cons_of_mem _ hm)
      obtain ⟨e1, e2⟩ := ih ha' hc' h2
      exact ⟨by rw [h1, e1], e2⟩

theorem edgeArgsToId_inj {a b c d : Key} (ha : cleanKey a) (hb : cleanKey b)
    (hc : cleanKey c) (hd : cleanKey d)
    (h : edgeArgsToId a b = edgeArgsToId c d) : a = c ∧ b = d := by
  unfold edgeArgsToId at h
  obtain ⟨h1, h2⟩ := append_cons_inj ha hc h
  exact ⟨h1, (append_cons_inj hb hd h2).1⟩

theorem edgeArgsToId_ne {a b c d : Key} (ha : cleanKey a) (hb : cleanKey b)
    (hc : cleanKey c) (hd : cleanKey d) (h : ¬ (a = c ∧ b = d)) :
    edgeArgsToId a b ≠ edgeArgsToId c d :=
  fun he => h (edgeArgsToId_inj ha hb hc hd he)

end IdLemmas

section FieldLemmas

variable {V E : Type}

theorem setNode_nodesT (g : Graph V E) (k : Key) (val : Option V) :
    (g.setNode k val).nodesT = mset g.nodesT k val := by
  by_cases h : mhas g.nodesT k = true <;> simp [Graph.setNode, h]

theorem setNode_edgeLabelsT (g : Graph V E) (k : Key) (val : Option V) :
    (g.setNode k val).edgeLabelsT = g.edgeLabelsT := by
  by_cases h : mhas g.nodesT k = true <;> simp [Graph.setNode, h]

theorem setNode_edgesT (g : Graph V E) (k : Key) (val : Option V) :
    (g.setNode k val).edgesT = g.edgesT := by
  by_cases h : mhas g.nodesT k = true <;> simp [Graph.setNode, h]

theorem setNode_label (g : Graph V E) (k : Key) (val : Option V) :
    (g.setNode k val).label? = g.label? := by
  by_cases h : mhas g.nodesT k = true <;> simp [Graph.setNode, h]

theorem setNode_edgeCountT (g : Graph V E) (k : Key) (val : Option V) :
    (g.setNode k val).edgeCountT = g.edgeCountT := by
  by_cases h : mhas g.nodesT k = true <;> simp [Graph.setNode, h]

theorem setNode_nodeCountT (g : Graph V E) (k : Key) (val : Option V) :
    (g.setNode k val).nodeCountT =
      if mhas g.nodesT k then g.nodeCountT else g.nodeCountT + 1 := by
  by_cases h : mhas g.nodesT k = true <;> simp [Graph.setNode, h]

theorem setNode_inT (g : Graph V E) (k : Key) (val : Option V) :
    (g.setNode k val).inT = if mhas g.nodesT k then g.inT else mset g.inT k [] := by
  by_cases h : mhas g.nodesT k = true <;> simp [Graph.setNode, h]

theorem setNode_outT (g : Graph V E) (k : Key) (val : Option V) :
    (g.setNode k val).outT = if mhas g.nodesT k then g.outT else mset g.outT k [] := by
  by_cases h : mhas g.nodesT k = true <;> simp [Graph.setNode, h]

theorem setNode_predsT (g : Graph V E) (k : Key) (val : Option V) :
    (g.setNode k val).predsT =
      if mhas g.nodesT k then g.predsT else mset g.predsT k [] := by
  by_cases h : mhas g.nodesT k = true <;> simp [Graph.setNode, h]

theorem setNode_succsT (g : Graph V E) (k : Key) (val : Option V) :
    (g.setNode k val).succsT =
      if mhas g.nodesT k then g.succsT else mset g.succsT k [] := by
  by_cases h : mhas g.nodesT k = true <;> simp [Graph.setNode, h]

theorem removeEdge_of_none {g : Graph V E} {v w : Key}
    (h : mget g.edgesT (edgeArgsToId v w) = none) : g.removeEdge v w = g := by
  simp [Graph.removeEdge, h]

theorem removeEdge_nodesT (g : Graph V E) (v w : Key) :
    (g.removeEdge v w).nodesT = g.nodesT := by
  rcases h : mget g.edgesT (edgeArgsToId v w) with _ | ed
  · rw [removeEdge_of_none h]
  · simp [Graph.removeEdge, h]

theorem removeEdge_nodeCountT (g : Graph V E) (v w : Key) :
    (g.removeEdge v w).nodeCountT = g.nodeCountT := by
  rcases h : mget g.edgesT (edgeArgsToId v w) with _ | ed
  · rw [removeEdge_of_none h]
  · simp [Graph.removeEdge, h]

theorem removeEdge_label (g : Graph V E) (v w : Key) :
    (g.removeEdge v w).label? = g.label? := by
  rcases h : mget g.edgesT (edgeArgsToId v w) with _ | ed
  · rw [removeEdge_of_none h]
  · simp [Graph.removeEdge, h]

theorem removeEdge_edgesT {g : Graph V E} {v w : Key} {ed : IEdge}
    (h : mget g.edgesT (edgeArgsToId v w) = some ed) :
    (g.removeEdge v w).edgesT = mdel g.edgesT (edgeArgsToId v w) := by
  simp [Graph.removeEdge, h]

theorem removeEdge_edgeLabelsT {g : Graph V E} {v w : Key} {ed : IEdge}
    (h : mget g.edgesT (edgeArgsToId v w) = some ed) :
    (g.removeEdge v w).edgeLabelsT = mdel g.edgeLabelsT (edgeArgsToId v w) := by
  simp [Graph.removeEdge, h]

theorem removeEdge_predsT {g : Graph V E} {v w : Key} {ed : IEdge}
    (h : mget g.edgesT (edgeArgsToId v w) = some ed) :
    (g.removeEdge v w).predsT =
      updMap g.predsT w (fun m => decrementOrRemoveEntry m v) := by
  simp [Graph.removeEdge, h]

theorem removeEdge_succsT {g : Graph V E} {v w : Key} {ed : IEdge}
    (h : mget g.edgesT (edgeArgsToId v w) = some ed) :
    (g.removeEdge v w).succsT =
      updMap g.succsT v (fun m => decrementOrRemoveEntry m w) := by
  simp [Graph.removeEdge, h]

theorem removeEdge_inT {g : Graph V E} {v w : Key} {ed : IEdge}
    (h : mget g.edgesT (edgeArgsToId v w) = some ed) :
    (g.removeEdge v w).inT =
      updMap g.inT w (fun m => mdel m (edgeArgsToId v w)) := by
  simp [Graph.removeEdge, h]

theorem removeEdge_outT {g : Graph V E} {v w : Key} {ed : IEdge}
    (h : mget g.edgesT (edgeArgsToId v w) = some ed) :
    (g.removeEdge v w).outT =
      updMap g.outT w (fun m => mdel m (edgeArgsToId v w)) := by
  simp [Graph.removeEdge, h]

theorem removeEdge_edgeCountT {g : Graph V E} {v w : Key} {ed : IEdge}
    (h : mget g.edgesT (edgeArgsToId v w) = some ed) :
    (g.removeEdge v w).edgeCountT = g.edgeCountT - 1 := by
  simp [Graph.removeEdge, h]

theorem removeEdge_mkeys_inT (g : Graph V E) (v w : Key) :
    mkeys (g.removeEdge v w).inT = mkeys g.inT := by
  rcases h : mget g.edgesT (edgeArgsToId v w) with _ | ed
  · rw [removeEdge_of_none h]
  · rw [removeEdge_inT h, mkeys_updMap]

theorem removeEdge_mkeys_outT (g : Graph V E) (v w : Key) :
    mkeys (g.removeEdge v w).outT = mkeys g.outT := by
  rcases h : mget g.edgesT (edgeArgsToId v w) with _ | ed
  · rw [removeEdge_of_none h]
  · rw [removeEdge_outT h, mkeys_updMap]

theorem removeEdge_mkeys_predsT (g : Graph V E) (v w : Key) :
    mkeys (g.removeEdge v w).predsT = mkeys g.predsT := by
  rcases h : mget g.edgesT (edgeArgsToId v w) with _ | ed
  · rw [removeEdge_of_none h]
  · rw [removeEdge_predsT h, mkeys_updMap]

theorem removeEdge_mkeys_succsT (g : Graph V E) (v w : Key) :
    mkeys (g.removeEdge v w).succsT = mkeys g.succsT := by
  rcases h : mget g.edgesT (edgeArgsToId v w) with _ | ed
  · rw [removeEdge_of_none h]
  · rw [removeEdge_succsT h, mkeys_updMap]

theorem removeEdge_edgesT_subset {g : Graph V E} {v w : Key} {p : Key × IEdge}
    (h : p ∈ (g.removeEdge v w).edgesT) : p ∈ g.edgesT := by
  rcases hg : mget g.edgesT (edgeArgsToId v w) with _ | ed
  · rwa [removeEdge_of_none hg] at h
  · rw [removeEdge_edgesT hg] at h
    exact (mem_mdel_iff.mp h).1

theorem removeEdge_mget_edgesT {g : Graph V E} {v w : Key} {k : Key} {ed : IEdge}
    (h : mget (g.removeEdge v w).edgesT k = some ed) : mget g.edgesT k = some ed := by
  rcases hg : mget g.edgesT (edgeArgsToId v w) with _ | ed₀
  · rwa [removeEdge_of_none hg] at h
  · by_cases hk : k = edgeArgsToId v w
    · rw [hk, removeEdge_edgesT hg, mget_mdel_self] at h
      cases h
    · rwa [removeEdge_edgesT hg, mget_mdel_ne hk] at h

end FieldLemmas

section RemoveIncidentLemmas

variable {V E : Type}

theorem removeIncident_pres (P : Graph V E → Prop)
    (hstep : ∀ (g : Graph V E) (k : Key) (ed : IEdge),
      mget g.edgesT k = some ed → P g → P (g.removeEdge ed.v ed.w)) :
    ∀ (ks : List Key) (g : Graph V E), P g → P (removeIncident g ks) := by
  intro ks
  induction ks with
  | nil => exact fun g h => h
  | cons k0 ks ih =>
    intro g h
    rcases hk0 : mget g.edgesT k0 with _ | ed0
    · have hred : removeIncident g (k0 :: ks) = removeIncident g ks := by
        simp only [removeIncident, List.foldl_cons, hk0]
      rw [hred]
      exact ih g h
    · have hred : removeIncident g (k0 :: ks) =
          removeIncident (g.removeEdge ed0.v ed0.w) ks := by
        simp only [removeIncident, List.foldl_cons, hk0]
      rw [hred]
      exact ih _ (hstep g k0 ed0 hk0 h)

theorem removeIncident_fix {γ : Type _} (f : Graph V E → γ)
    (hf : ∀ (g : Graph V E) (v w : Key), f (g.removeEdge v w) = f g)
    (ks : List Key) (g : Graph V E) : f (removeIncident g ks) = f g :=
  removeIncident_pres (fun g' => f g' = f g)
    (fun g' _ ed _ h => (hf g' ed.v ed.w).trans h) ks g rfl

theorem removeIncident_nodesT (ks : List Key) (g : Graph V E) :
    (removeIncident g ks).nodesT = g.nodesT :=
  removeIncident_fix (fun g' => g'.nodesT) (fun g v w => removeEdge_nodesT g v w) ks g

theorem removeIncident_nodeCountT (ks : List Key) (g : Graph V E) :
    (removeIncident g ks).nodeCountT = g.nodeCountT :=
  removeIncident_fix (fun g' => g'.nodeCountT) (fun g v w => removeEdge_nodeCountT g v w) ks g

theorem removeIncident_label (ks : List Key) (g : Graph V E) :
    (removeIncident g ks).label? = g.label? :=
  removeIncident_fix (fun g' => g'.label?) (fun g v w => removeEdge_label g v w) ks g

theorem removeIncident_mkeys_inT (ks : List Key) (g : Graph V E) :
    mkeys (removeIncident g ks).inT = mkeys g.inT :=
  removeIncident_fix (fun g' => mkeys g'.inT) (fun g v w => removeEdge_mkeys_inT g v w) ks g

theorem removeIncident_mkeys_outT (ks : List Key) (g : Graph V E) :
    mkeys (removeIncident g ks).outT = mkeys g.outT :=
  removeIncident_fix (fun g' => mkeys g'.outT) (fun g v w => removeEdge_mkeys_outT g v w) ks g

theorem removeIncident_mkeys_predsT (ks : List Key) (g : Graph V E) :
    mkeys (removeIncident g ks).predsT = mkeys g.predsT :=
  removeIncident_fix (fun g' => mkeys g'.predsT) (fun g v w => removeEdge_mkeys_predsT g v w) ks g

theorem removeIncident_mkeys_succsT (ks : List Key) (g : Graph V E) :
    mkeys (removeIncident g ks).succsT = mkeys g.succsT :=
  removeIncident_fix (fun g' => mkeys g'.succsT) (fun g v w => removeEdge_mkeys_succsT g v w) ks g

theorem removeIncident_mget_edgesT {ks : List Key} :
    ∀ {g : Graph V E} {k : Key} {ed : IEdge},
    mget (removeIncident g ks).edgesT k = some ed → mget g.edgesT k = some ed := by
  induction ks with
  | nil => exact fun h => h
  | cons k0 ks ih =>
    intro g k ed h
    rcases hk0 : mget g.edgesT k0 with _ | ed0
    · have hred : removeIncident g (k0 :: ks) = removeIncident g ks := by
        simp only [removeIncident, List.foldl_cons, hk0]
      rw [hred] at h
      exact ih h
    · have hred : removeIncident g (k0 :: ks) =
          removeIncident (g.removeEdge ed0.v ed0.w) ks := by
        simp only [removeIncident, List.foldl_cons, hk0]
      rw [hred] at h
      exact removeEdge_mget_edgesT (ih h)

theorem removeIncident_clears :
    ∀ (ks : List Key) (g : Graph V E),
    (∀ p ∈ g.edgesT, p.1 = edgeArgsToId p.2.v p.2.w) →
    ∀ k ∈ ks, mget (removeIncident g ks).edgesT k = none := by
  intro ks
  induction ks with
  | nil => exact fun g _ k hk => absurd hk (List.not_mem_nil k)
  | cons k0 ks ih =>
    intro g hs k hk
    rcases hk0 : mget g.edgesT k0 with _ | ed0
    · have hred : removeIncident g (k0 :: ks) = removeIncident g ks := by
        simp only [removeIncident, List.foldl_cons, hk0]
      rw [hred]
      rcases List.mem_cons.mp hk with rfl | hk'
      · rcases hafter : mget (removeIncident g ks).edgesT k with _ | ed
        · rfl
        · rw [removeIncident_mget_edgesT hafter] at hk0
          cases hk0
      · exact ih g hs k hk'
    · have hred : removeIncident g (k0 :: ks) =
          removeIncident (g.removeEdge ed0.v ed0.w) ks := by
        simp only [removeIncident, List.foldl_cons, hk0]
      rw [hred]
      have hk0id : k0 = edgeArgsToId ed0.v ed0.w := hs _ (mem_of_mget hk0)
      have hsome : mget g.edgesT (edgeArgsToId ed0.v ed0.w) = some ed0 := by
        rw [← hk0id]
        exact hk0
      have hgone : mget (g.removeEdge ed0.v ed0.w).edgesT k0 = none := by
        rw [removeEdge_edgesT hsome, hk0id, mget_mdel_self]
      have hs' : ∀ p ∈ (g.removeEdge ed0.v ed0.w).edgesT,
          p.1 = edgeArgsToId p.2.v p.2.w :=
        fun p hp => hs p (removeEdge_edgesT_subset hp)
      rcases List.mem_cons.mp hk with rfl | hk'
      · rcases hafter : mget (removeIncident _ ks).edgesT k with _ | ed
        · rfl
        · rw [removeIncident_mget_edgesT hafter] at hgone
          cases hgone
      · exact ih _ hs' k hk'

end RemoveIncidentLemmas

section SetEdgeFieldLemmas

variable {V E : Type}

theorem setEdge_edgeLabelsT (g : Graph V E) (v w : Key) (val : Option E) :
    (g.setEdge v w val).edgeLabelsT = mset g.edgeLabelsT (edgeArgsToId v w) val := by
  cases hh : mhas g.edgeLabelsT (edgeArgsToId v w)
  · simp [Graph.setEdge, hh, setNode_edgeLabelsT]
  · simp [Graph.setEdge, hh]

theorem setEdge_label (g : Graph V E) (v w : Key) (val : Option E) :
    (g.setEdge v w val).label? = g.label? := by
  cases hh : mhas g.edgeLabelsT (edgeArgsToId v w)
  · simp [Graph.setEdge, hh, setNode_label]
  · simp [Graph.setEdge, hh]

theorem setEdge_of_has {g : Graph V E} {v w : Key} {val : Option E}
    (h : mhas g.edgeLabelsT (edgeArgsToId v w) = true) :
    g.setEdge v w val = { g with
      edgeLabelsT := mset g.edgeLabelsT (edgeArgsToId v w) val } := by
  simp [Graph.setEdge, h]

theorem setEdgeI_nodesT {g : Graph V E} {v w : Key} {val : Option E}
    (h : mhas g.edgeLabelsT (edgeArgsToId v w) = false) :
    (g.setEdge v w val).nodesT = mset (mset g.nodesT v none) w none := by
  simp [Graph.setEdge, h, setNode_nodesT]

theorem setEdgeI_edgesT {g : Graph V E} {v w : Key} {val : Option E}
    (h : mhas g.edgeLabelsT (edgeArgsToId v w) = false) :
    (g.setEdge v w val).edgesT =
      mset g.edgesT (edgeArgsToId v w) ⟨v, w⟩ := by
  simp [Graph.setEdge, h, setNode_edgesT]

theorem setEdgeI_nodeCountT {g : Graph V E} {v w : Key} {val : Option E}
    (h : mhas g.edgeLabelsT (edgeArgsToId v w) = false) :
    (g.setEdge v w val).nodeCountT = ((g.setNode v none).setNode w none).nodeCountT := by
  simp [Graph.setEdge, h]

theorem setEdgeI_edgeCountT {g : Graph V E} {v w : Key} {val : Option E}
    (h : mhas g.edgeLabelsT (edgeArgsToId v w) = false) :
    (g.setEdge v w val).edgeCountT = g.edgeCountT + 1 := by
  simp [Graph.setEdge, h, setNode_edgeCountT]

theorem setEdgeI_predsT {g : Graph V E} {v w : Key} {val : Option E}
    (h : mhas g.edgeLabelsT (edgeArgsToId v w) = false) :
    (g.setEdge v w val).predsT =
      updMap ((g.setNode v none).setNode w none).predsT w
        (fun m => incrementOrInitEntry m v) := by
  simp [Graph.setEdge, h]

theorem setEdgeI_succsT {g : Graph V E} {v w : Key} {val : Option E}
    (h : mhas g.edgeLabelsT (edgeArgsToId v w) = false) :
    (g.setEdge v w val).succsT =
      updMap ((g.setNode v none).setNode w none).succsT v
        (fun m => incrementOrInitEntry m w) := by
  simp [Graph.setEdge, h]

theorem setEdgeI_inT {g : Graph V E} {v w : Key} {val : Option E}
    (h : mhas g.edgeLabelsT (edgeArgsToId v w) = false) :
    (g.setEdge v w val).inT =
      updMap ((g.setNode v none).setNode w none).inT w
        (fun m => mset m (edgeArgsToId v w) ⟨v, w⟩) := by
  simp [Graph.setEdge, h]

theorem setEdgeI_outT {g : Graph V E} {v w : Key} {val : Option E}
    (h : mhas g.edgeLabelsT (edgeArgsToId v w) = false) :
    (g.setEdge v w val).outT =
      updMap ((g.setNode v none).setNode w none).outT v
        (fun m => mset m (edgeArgsToId v w) ⟨v, w⟩) := by
  simp [Graph.setEdge, h]

end SetEdgeFieldLemmas

theorem mhas_mset_ne {α β : Type _} [DecidableEq α] {k' k : α} (h : k' ≠ k)
    (m : List (α × β)) (v : β) : mhas (mset m k v) k' = mhas m k' := by
  simp [mhas, mget_mset_ne h]

/-- C1: the claim says `sources()` returns exactly the zero in-degree nodes
and `sinks()` exactly the zero out-degree nodes in every state.  The code
violates it: after `setEdge('a','b'); removeEdge('a','b')`, `removeEdge`
deleted the forward-adjacency entry of the target instead of the source, so
`sinks()` returns only `['b']` although both nodes have zero out-degree; and
the typed variant computes `sources()` with the forward-adjacency check, so
on the one-edge graph a -> b it returns `['b']` although the zero in-degree
set is `['a']`.  The untyped `sources()` is correct on this state. -/
theorem c1_sources_sinks_eval :
    gChainRemoved.sinks = [['b']] ∧
    zeroOutDegreeNodes gChainRemoved = [['a'], ['b']] ∧
    gChainRemoved.sinks ≠ zeroOutDegreeNodes gChainRemoved ∧
    sourcesTyped gChain = [['b']] ∧
    zeroInDegreeNodes gChain = [['a']] ∧
    sourcesTyped gChain = gChain.sinks ∧
    gChain.sources = [['a']] := by
  decide

/-- C3: evaluation of `removeEdge` on the stored edge (c, d).  Every part of
the claim holds at this input except the forward adjacency: the edge value,
edge-table entry, predecessor and successor counts, reverse adjacency and
edge counter are all cleaned up, but `outEdges('c')` still contains the
removed edge because the code deletes from the forward adjacency of the
target `d` rather than the source `c`. -/
theorem c3_removeEdge_eval :
    gCDRemoved.hasEdge ['c'] ['d'] = false ∧
    gCDRemoved.edge ['c'] ['d'] = none ∧
    gCDRemoved.edgesT = [] ∧
    gCDRemoved.edgeCount = 0 ∧
    gCDRemoved.predecessors ['d'] = some [] ∧
    gCDRemoved.successors ['c'] = some [] ∧
    gCDRemoved.inEdges ['d'] none = some [] ∧
    gCDRemoved.outEdges ['c'] none = some [⟨['c'], ['d']⟩] := by
  decide

/-- C5 counterexample: on the empty graph, `setEdge('a','b')` then
`removeEdge('a','b')` does not restore `successors('a')`: it was the absent
result (`undefined`) before and is the present empty list afterwards, because
`removeEdge` does not remove the nodes that `setEdge` implicitly created. -/
theorem c5_counterexample :
    gChainRemoved.successors ['a'] ≠ (Graph.new none : Graph Nat Nat).successors ['a'] ∧
    (Graph.new none : Graph Nat Nat).successors ['a'] = none ∧
    gChainRemoved.successors ['a'] = some [] := by
  decide

/-- C6 counterexample: with keys containing the delimiter character,
`setEdge("y\x01z", "c")`, then `removeEdge("y", "z\x01c")` (a colliding id
that removes the stored edge but leaves the predecessor count of "c" stale),
then `removeNode("y\x01z")` leaves the remaining node "c" still listing the
removed node among its predecessors. -/
theorem c6_counterexample :
    gStale.hasNode ['y', EDGE_KEY_DELIM, 'z'] = false ∧
    gStale.hasNode ['c'] = true ∧
    gStale.predecessors ['c'] = some [['y', EDGE_KEY_DELIM, 'z']] := by
  decide

/-- C8 counterexample: for the distinct keys a = "\x01" and b = "\x01\x01"
the composed ids of (a, b) and (b, a) coincide, so after `setEdge(a, b)` on
the empty graph `hasEdge(b, a)` is true although no edge (b, a) was ever
set. -/
theorem c8_counterexample :
    (([EDGE_KEY_DELIM] : Key) ≠ [EDGE_KEY_DELIM, EDGE_KEY_DELIM]) ∧
    (Graph.new none : Graph Nat Nat).hasEdge
      [EDGE_KEY_DELIM, EDGE_KEY_DELIM] [EDGE_KEY_DELIM] = false ∧
    ((Graph.new none : Graph Nat Nat).setEdge
      [EDGE_KEY_DELIM] [EDGE_KEY_DELIM, EDGE_KEY_DELIM] none).hasEdge
      [EDGE_KEY_DELIM, EDGE_KEY_DELIM] [EDGE_KEY_DELIM] = true := by
  decide

/-- C8 amended: for keys free of the delimiter character, distinct ordered
pairs denote distinct edges: after `setEdge(a, b)` with `a ≠ b` and no edge
(b, a) present, `hasEdge(a, b)` is true and `hasEdge(b, a)` is false, and the
edge stored for any other delimiter-free ordered pair (c, d) is unchanged. -/
theorem c8_setEdge_directed {V E : Type} (g : Graph V E) (a b c d : Key)
    (val : Option E) (ha : cleanKey a) (hb : cleanKey b) (hc : cleanKey c)
    (hd : cleanKey d) (hab : a ≠ b) (hba : g.hasEdge b a = false)
    (hcd : (c, d) ≠ (a, b)) :
    (g.setEdge a b val).hasEdge a b = true ∧
    (g.setEdge a b val).hasEdge b a = false ∧
    (g.setEdge a b val).hasEdge c d = g.hasEdge c d ∧
    (g.setEdge a b val).edge c d = g.edge c d := by
  have hba' : edgeArgsToId b a ≠ edgeArgsToId a b :=
    edgeArgsToId_ne hb ha ha hb (fun hh => hab hh.1.symm)
  have hcd' : edgeArgsToId c d ≠ edgeArgsToId a b :=
    edgeArgsToId_ne hc hd ha hb (fun hh => hcd (by rw [hh.1, hh.2]))
  refine ⟨?_, ?_, ?_, ?_⟩
  · show mhas (g.setEdge a b val).edgeLabelsT (edgeArgsToId a b) = true
    rw [setEdge_edgeLabelsT]
    exact mhas_mset_self _ _ _
  · show mhas (g.setEdge a b val).edgeLabelsT (edgeArgsToId b a) = false
    rw [setEdge_edgeLabelsT, mhas_mset_ne hba']
    exact hba
  · show mhas (g.setEdge a b val).edgeLabelsT (edgeArgsToId c d) = _
    rw [setEdge_edgeLabelsT, mhas_mset_ne hcd']
    rfl
  · show mget (g.setEdge a b val).edgeLabelsT (edgeArgsToId c d) = _
    rw [setEdge_edgeLabelsT, mget_mset_ne hcd']
    rfl

/-- C8 witness: the amended statement applied to the empty graph and the
concrete delimiter-free keys a, b, c, d. -/
theorem c8_setEdge_directed_witness :
    (((Graph.new none : Graph Nat Nat).setEdge ['a'] ['b'] none).hasEdge ['a'] ['b'] = true ∧
     ((Graph.new none : Graph Nat Nat).setEdge ['a'] ['b'] none).hasEdge ['b'] ['a'] = false ∧
     ((Graph.new none : Graph Nat Nat).setEdge ['a'] ['b'] none).hasEdge ['c'] ['d'] =
       (Graph.new none : Graph Nat Nat).hasEdge ['c'] ['d'] ∧
     ((Graph.new none : Graph Nat Nat).setEdge ['a'] ['b'] none).edge ['c'] ['d'] =
       (Graph.new none : Graph Nat Nat).edge ['c'] ['d']) :=
  c8_setEdge_directed (Graph.new none) ['a'] ['b'] ['c'] ['d'] none
    (by decide) (by decide) (by decide) (by decide)
    (by decide) (by decide) (by decide)

/-- C9: setting a node with the value omitted stores the explicit "no value"
payload: afterwards the node is present and `node(k)` returns `some none`
(the stored `null`), which differs from the absent result `none`
(`undefined`) that `node` returned before the insertion. -/
theorem c9_setNode_noValue {V E : Type} (g : Graph V E) (k : Key)
    (h : g.hasNode k = false) :
    (g.setNode k none).hasNode k = true ∧
    (g.setNode k none).node k = some none ∧
    g.node k = none ∧
    (some (none : Option V) ≠ (none : Option (Option V))) := by
  refine ⟨?_, ?_, ?_, by simp⟩
  · show mhas (g.setNode k none).nodesT k = true
    rw [setNode_nodesT]
    exact mhas_mset_self _ _ _
  · show mget (g.setNode k none).nodesT k = some none
    rw [setNode_nodesT]
    exact mget_mset_self _ _ _
  · show mget g.nodesT k = none
    have : mhas g.nodesT k = false := h
    exact mget_eq_none_iff.mpr (mhas_eq_false_iff.mp this)

/-- C9 witness: the statement at the empty graph and the key "a". -/
theorem c9_setNode_noValue_witness :
    ((Graph.new none : Graph Nat Nat).setNode ['a'] none).hasNode ['a'] = true ∧
    ((Graph.new none : Graph Nat Nat).setNode ['a'] none).node ['a'] = some none ∧
    (Graph.new none : Graph Nat Nat).node ['a'] = none ∧
    (some (none : Option Nat) ≠ (none : Option (Option Nat))) :=
  c9_setNode_noValue (Graph.new none) ['a'] (by decide)

/-- C10: every query method of the class only reads the receiver's fields,
so in state-passing form each returns the receiver unchanged: all six
indices, both counters and the label are identical before and after the
call. -/
theorem c10_queries_pure {V E : Type} (g : Graph V E) (v w : Key) (wo : Option Key) :
    (g.labelM).2 = g ∧ (g.nodeCountM).2 = g ∧ (g.edgeCountM).2 = g ∧
    (g.nodeM v).2 = g ∧ (g.hasNodeM v).2 = g ∧ (g.edgeM v w).2 = g ∧
    (g.hasEdgeM v w).2 = g ∧ (g.edgesM).2 = g ∧ (g.nodesM).2 = g ∧
    (g.sourcesM).2 = g ∧ (g.sinksM).2 = g ∧ (g.predecessorsM v).2 = g ∧
    (g.successorsM v).2 = g ∧ (g.neighborsM v).2 = g ∧ (g.isLeafM v).2 = g ∧
    (g.inEdgesM v wo).2 = g ∧ (g.outEdgesM v wo).2 = g ∧
    (g.nodeEdgesM v wo).2 = g :=
  ⟨rfl, rfl, rfl, rfl, rfl, rfl, rfl, rfl, rfl, rfl, rfl, rfl, rfl, rfl, rfl,
   rfl, rfl, rfl⟩

/-- C2: when the ordered pair (v, w) has no stored edge and at least one
endpoint is missing, `setEdge(v, w)` does not fail: it implicitly creates
each missing endpoint (afterwards both are present and the node counter grew
by one per newly created node) and inserts the edge. -/
theorem c2_setEdge_creates_endpoints {V E : Type} (g : Graph V E) (v w : Key)
    (val : Option E) (h1 : g.hasEdge v w = false)
    (h2 : g.hasNode v = false ∨ g.hasNode w = false) :
    (g.setEdge v w val).hasNode v = true ∧
    (g.setEdge v w val).hasNode w = true ∧
    (g.setEdge v w val).hasEdge v w = true ∧
    mget (g.setEdge v w val).edgesT (edgeArgsToId v w) = some ⟨v, w⟩ ∧
    (g.setEdge v w val).nodeCount = g.nodeCount +
      (if g.hasNode v then 0 else 1) +
      (if g.hasNode w = true ∨ v = w then 0 else 1) := by
  have hne : mhas g.edgeLabelsT (edgeArgsToId v w) = false := h1
  refine ⟨?_, ?_, ?_, ?_, ?_⟩
  · show mhas (g.setEdge v w val).nodesT v = true
    rw [setEdgeI_nodesT hne]
    by_cases hvw : v = w
    · rw [hvw]
      exact mhas_mset_self _ _ _
    · rw [mhas_mset_ne hvw]
      exact mhas_mset_self _ _ _
  · show mhas (g.setEdge v w val).nodesT w = true
    rw [setEdgeI_nodesT hne]
    exact mhas_mset_self _ _ _
  · show mhas (g.setEdge v w val).edgeLabelsT (edgeArgsToId v w) = true
    rw [setEdge_edgeLabelsT]
    exact mhas_mset_self _ _ _
  · rw [setEdgeI_edgesT hne]
    exact mget_mset_self _ _ _
  · show (g.setEdge v w val).nodeCountT = g.nodeCountT + _ + _
    rw [setEdgeI_nodeCountT hne, setNode_nodeCountT, setNode_nodesT,
      setNode_nodeCountT]
    show (if mhas (mset g.nodesT v none) w then _ else _) = _
    by_cases hvw : w = v
    · subst hvw
      rw [mhas_mset_self]
      show _ = g.nodeCountT + (if mhas g.nodesT w then 0 else 1) + _
      by_cases hv : mhas g.nodesT w = true <;> simp [hv] <;> omega
    · rw [mhas_mset_ne hvw]
      show _ = g.nodeCountT + (if mhas g.nodesT v then 0 else 1) +
        (if mhas g.nodesT w = true ∨ v = w then 0 else 1)
      have hvw' : ¬ (v = w) := fun he => hvw he.symm
      by_cases hv : mhas g.nodesT v = true <;>
        by_cases hw : mhas g.nodesT w = true <;>
          simp [hv, hw, hvw'] <;> omega

/-- C2 witness: the statement at the empty graph with both endpoints
missing. -/
theorem c2_setEdge_creates_endpoints_witness :
    ((Graph.new none : Graph Nat Nat).setEdge ['a'] ['b'] none).hasNode ['a'] = true ∧
    ((Graph.new none : Graph Nat Nat).setEdge ['a'] ['b'] none).hasNode ['b'] = true ∧
    ((Graph.new none : Graph Nat Nat).setEdge ['a'] ['b'] none).hasEdge ['a'] ['b'] = true ∧
    mget ((Graph.new none : Graph Nat Nat).setEdge ['a'] ['b'] none).edgesT
      (edgeArgsToId ['a'] ['b']) = some ⟨['a'], ['b']⟩ ∧
    ((Graph.new none : Graph Nat Nat).setEdge ['a'] ['b'] none).nodeCount =
      (Graph.new none : Graph Nat Nat).nodeCount +
      (if (Graph.new none : Graph Nat Nat).hasNode ['a'] then 0 else 1) +
      (if (Graph.new none : Graph Nat Nat).hasNode ['b'] = true ∨ (['a'] : Key) = ['b']
        then 0 else 1) :=
  c2_setEdge_creates_endpoints (Graph.new none) ['a'] ['b'] none
    (by decide) (Or.inl (by decide))

/-- C7: when the ordered pair (v, w) already has a stored edge,
`setEdge(v, w, value)` overwrites only the edge value: node table, both
adjacency indices, both count maps, the edge table, both counters and the
label are unchanged; and two identical `setEdge` calls always produce the
same state as one. -/
theorem c7_setEdge_overwrite {V E : Type} (g : Graph V E) (v w : Key)
    (val : Option E) :
    (g.hasEdge v w = true →
      (g.setEdge v w val).nodesT = g.nodesT ∧
      (g.setEdge v w val).inT = g.inT ∧
      (g.setEdge v w val).outT = g.outT ∧
      (g.setEdge v w val).predsT = g.predsT ∧
      (g.setEdge v w val).succsT = g.succsT ∧
      (g.setEdge v w val).edgesT = g.edgesT ∧
      (g.setEdge v w val).nodeCount = g.nodeCount ∧
      (g.setEdge v w val).edgeCount = g.edgeCount ∧
      (g.setEdge v w val).label = g.label) ∧
    (g.setEdge v w val).setEdge v w val = g.setEdge v w val := by
  constructor
  · intro h
    have h' : mhas g.edgeLabelsT (edgeArgsToId v w) = true := h
    rw [setEdge_of_has h']
    exact ⟨rfl, rfl, rfl, rfl, rfl, rfl, rfl, rfl, rfl⟩
  · cases hh : mhas g.edgeLabelsT (edgeArgsToId v w)
    · have hS : (g.setEdge v w val).edgeLabelsT =
          mset g.edgeLabelsT (edgeArgsToId v w) val := setEdge_edgeLabelsT g v w val
      have hh2 : mhas (g.setEdge v w val).edgeLabelsT (edgeArgsToId v w) = true := by
        rw [hS]
        exact mhas_mset_self _ _ _
      rw [setEdge_of_has hh2]
      have : mset (g.setEdge v w val).edgeLabelsT (edgeArgsToId v w) val =
          (g.setEdge v w val).edgeLabelsT := by
        rw [hS, mset_mset_self]
      rw [this]
    · have hh2 : mhas (g.setEdge v w val).edgeLabelsT (edgeArgsToId v w) = true := by
        rw [setEdge_edgeLabelsT]
        exact mhas_mset_self _ _ _
      rw [setEdge_of_has hh2]
      have : mset (g.setEdge v w val).edgeLabelsT (edgeArgsToId v w) val =
          (g.setEdge v w val).edgeLabelsT := by
        rw [setEdge_edgeLabelsT, mset_mset_self]
      rw [this]

/-- C7 witness: the statement at the one-edge graph c -> d, whose edge
(c, d) is present. -/
theorem c7_setEdge_overwrite_witness :
    ((gCD.setEdge ['c'] ['d'] (some 3)).nodesT = gCD.nodesT ∧
     (gCD.setEdge ['c'] ['d'] (some 3)).inT = gCD.inT ∧
     (gCD.setEdge ['c'] ['d'] (some 3)).outT = gCD.outT ∧
     (gCD.setEdge ['c'] ['d'] (some 3)).predsT = gCD.predsT ∧
     (gCD.setEdge ['c'] ['d'] (some 3)).succsT = gCD.succsT ∧
     (gCD.setEdge ['c'] ['d'] (some 3)).edgesT = gCD.edgesT ∧
     (gCD.setEdge ['c'] ['d'] (some 3)).nodeCount = gCD.nodeCount ∧
     (gCD.setEdge ['c'] ['d'] (some 3)).edgeCount = gCD.edgeCount ∧
     (gCD.setEdge ['c'] ['d'] (some 3)).label = gCD.label) ∧
    (gCD.setEdge ['c'] ['d'] (some 3)).setEdge ['c'] ['d'] (some 3) =
      gCD.setEdge ['c'] ['d'] (some 3) :=
  ⟨(c7_setEdge_overwrite gCD ['c'] ['d'] (some 3)).1 (by decide),
   (c7_setEdge_overwrite gCD ['c'] ['d'] (some 3)).2⟩

section PosLemmas

theorem mkeys_mem_of_mget {α β : Type _} [DecidableEq α] {m : List (α × β)}
    {k : α} {v : β} (h : mget m k = some v) : k ∈ mkeys m :=
  List.mem_map.mpr ⟨(k, v), mem_of_mget h, rfl⟩

theorem mget_mdel_cases {α β : Type _} [DecidableEq α] {M : List (α × β)}
    {v b : α} {m : β} (h : mget (mdel M v) b = some m) :
    mget M b = some m ∧ b ≠ v := by
  by_cases hb : b = v
  · rw [hb, mget_mdel_self] at h
    cases h
  · rw [mget_mdel_ne hb] at h
    exact ⟨h, hb⟩

theorem mget_updMap_cases {α : Type _} [DecidableEq α] {γ : Type _}
    {M : List (α × List γ)} {k b : α} {f : List γ → List γ} {m : List γ}
    (h : mget (updMap M k f) b = some m) :
    (b = k ∧ ∃ m0, mget M k = some m0 ∧ m = f m0) ∨
    (b ≠ k ∧ mget M b = some m) := by
  by_cases hb : b = k
  · rw [hb, mget_updMap_self] at h
    rcases Option.map_eq_some'.mp h with ⟨m0, hm0, hfm⟩
    exact Or.inl ⟨hb, m0, hm0, hfm.symm⟩
  · rw [mget_updMap_ne hb] at h
    exact Or.inr ⟨hb, h⟩

theorem mem_decrement_subset {m : List (Key × Int)} {k : Key} {q : Key × Int}
    (h : q ∈ decrementOrRemoveEntry m k) : q ∈ m := by
  simp only [decrementOrRemoveEntry] at h
  split at h
  · exact (mem_mdel_iff.mp h).1
  · exact h

theorem pos_incrementOrInit {m : List (Key × Int)} {k : Key}
    (hp : ∀ q ∈ m, 1 ≤ q.2) : ∀ q ∈ incrementOrInitEntry m k, 1 ≤ q.2 := by
  intro q hq
  simp only [incrementOrInitEntry] at hq
  by_cases hc : (mget m k).getD 0 ≠ 0
  · rw [if_pos hc] at hq
    rcases mem_of_mem_mset hq with h | h
    · exact hp q h
    · rcases hm : mget m k with _ | c0
      · rw [hm] at hc
        simp at hc
      · have h1 := hp (k, c0) (mem_of_mget hm)
        rw [h, hm]
        simp only [Option.getD_some]
        simp only at h1
        omega
  · rw [if_neg hc] at hq
    rcases mem_of_mem_mset hq with h | h
    · exact hp q h
    · rw [h]

theorem pos_decrement {m : List (Key × Int)} {k : Key}
    (hp : ∀ q ∈ m, 1 ≤ q.2) : ∀ q ∈ decrementOrRemoveEntry m k, 1 ≤ q.2 :=
  fun q hq => hp q (mem_decrement_subset hq)

end PosLemmas

section InvALemmas

variable {V E : Type}

theorem invA_new (lab : Option (List Char)) : InvA (Graph.new lab : Graph V E) := by
  refine ⟨rfl, rfl, rfl, rfl, rfl, ?_, ?_, ?_, rfl, rfl, ?_, ?_⟩
  · exact List.nodup_nil
  · exact List.nodup_nil
  · intro p hp
    cases hp
  · intro b m h
    cases h
  · intro a m h
    cases h

theorem setNode_of_has {g : Graph V E} {k : Key} {val : Option V}
    (h : mhas g.nodesT k = true) :
    g.setNode k val = { g with nodesT := mset g.nodesT k val } := by
  simp [Graph.setNode, h]

theorem setNode_of_not_has {g : Graph V E} {k : Key} {val : Option V}
    (h : mhas g.nodesT k = false) :
    g.setNode k val = { g with
      nodesT := mset g.nodesT k val
      inT := mset g.inT k []
      predsT := mset g.predsT k []
      outT := mset g.outT k []
      succsT := mset g.succsT k []
      nodeCountT := g.nodeCountT + 1 } := by
  simp [Graph.setNode, h]

theorem invA_setNode {g : Graph V E} (hA : InvA g) (k : Key) (val : Option V) :
    InvA (g.setNode k val) := by
  cases hk : mhas g.nodesT k
  · have hkin : mhas g.inT k = false := by
      rw [mhas_eq_false_iff, hA.dom_in, ← mhas_eq_false_iff]
      exact hk
    have hkout : mhas g.outT k = false := by
      rw [mhas_eq_false_iff, hA.dom_out, ← mhas_eq_false_iff]
      exact hk
    have hkp : mhas g.predsT k = false := by
      rw [mhas_eq_false_iff, hA.dom_preds, ← mhas_eq_false_iff]
      exact hk
    have hks : mhas g.succsT k = false := by
      rw [mhas_eq_false_iff, hA.dom_succs, ← mhas_eq_false_iff]
      exact hk
    rw [setNode_of_not_has hk]
    refine ⟨?_, ?_, ?_, ?_, hA.labels_edges, ?_, hA.edges_nodup,
      hA.edges_shape, ?_, hA.ecount, ?_, ?_⟩
    · show mkeys (mset g.inT k []) = mkeys (mset g.nodesT k val)
      rw [mkeys_mset_of_not_mhas hkin, mkeys_mset_of_not_mhas hk, hA.dom_in]
    · show mkeys (mset g.outT k []) = mkeys (mset g.nodesT k val)
      rw [mkeys_mset_of_not_mhas hkout, mkeys_mset_of_not_mhas hk, hA.dom_out]
    · show mkeys (mset g.predsT k []) = mkeys (mset g.nodesT k val)
      rw [mkeys_mset_of_not_mhas hkp, mkeys_mset_of_not_mhas hk, hA.dom_preds]
    · show mkeys (mset g.succsT k []) = mkeys (mset g.nodesT k val)
      rw [mkeys_mset_of_not_mhas hks, mkeys_mset_of_not_mhas hk, hA.dom_succs]
    · show (mkeys (mset g.nodesT k val)).Nodup
      exact nodup_mkeys_mset hA.nodes_nodup val
    · show g.nodeCountT + 1 = ((mkeys (mset g.nodesT k val)).length : Int)
      rw [mkeys_mset_of_not_mhas hk, List.length_append, hA.ncount]
      push_cast
      simp
    · show ∀ b m, mget (mset g.predsT k []) b = some m → ∀ q ∈ m, 1 ≤ q.2
      intro b m h q hq
      by_cases hb : b = k
      · rw [hb, mget_mset_self] at h
        have hm : ([] : List (Key × Int)) = m := by injection h
        rw [← hm] at hq
        cases hq
      · rw [mget_mset_ne hb] at h
        exact hA.preds_pos b m h q hq
    · show ∀ a m, mget (mset g.succsT k []) a = some m → ∀ q ∈ m, 1 ≤ q.2
      intro a m h q hq
      by_cases hb : a = k
      · rw [hb, mget_mset_self] at h
        have hm : ([] : List (Key × Int)) = m := by injection h
        rw [← hm] at hq
        cases hq
      · rw [mget_mset_ne hb] at h
        exact hA.succs_pos a m h q hq
  · rw [setNode_of_has hk]
    refine ⟨?_, ?_, ?_, ?_, hA.labels_edges, ?_, hA.edges_nodup,
      hA.edges_shape, ?_, hA.ecount, hA.preds_pos, hA.succs_pos⟩
    · show mkeys g.inT = mkeys (mset g.nodesT k val)
      rw [mkeys_mset_of_mhas hk]
      exact hA.dom_in
    · show mkeys g.outT = mkeys (mset g.nodesT k val)
      rw [mkeys_mset_of_mhas hk]
      exact hA.dom_out
    · show mkeys g.predsT = mkeys (mset g.nodesT k val)
      rw [mkeys_mset_of_mhas hk]
      exact hA.dom_preds
    · show mkeys g.succsT = mkeys (mset g.nodesT k val)
      rw [mkeys_mset_of_mhas hk]
      exact hA.dom_succs
    · show (mkeys (mset g.nodesT k val)).Nodup
      exact nodup_mkeys_mset hA.nodes_nodup val
    · show g.nodeCountT = ((mkeys (mset g.nodesT k val)).length : Int)
      rw [mkeys_mset_of_mhas hk]
      exact hA.ncount

end InvALemmas

section InvAPreservation

variable {V E : Type}

theorem invACore_removeEdge {g : Graph V E} (hC : InvACore g) (v w : Key) :
    InvACore (g.removeEdge v w) := by
  rcases hg : mget g.edgesT (edgeArgsToId v w) with _ | ed
  · rw [removeEdge_of_none hg]
    exact hC
  · refine ⟨?_, ?_, ?_, ?_, ?_, ?_⟩
    · rw [removeEdge_edgeLabelsT hg, removeEdge_edgesT hg, mkeys_mdel, mkeys_mdel,
        hC.labels_edges]
    · rw [removeEdge_edgesT hg]
      exact nodup_mkeys_mdel _ hC.edges_nodup
    · rw [removeEdge_edgesT hg]
      intro p hp
      exact hC.edges_shape p (mem_mdel_iff.mp hp).1
    · rw [removeEdge_edgeCountT hg, removeEdge_edgesT hg, mkeys_mdel]
      have hmem : edgeArgsToId v w ∈ mkeys g.edgesT := mkeys_mem_of_mget hg
      have hlen := length_filter_ne_of_nodup hC.edges_nodup hmem
      rw [hC.ecount]
      omega
    · rw [removeEdge_predsT hg]
      intro b m h q hq
      rcases mget_updMap_cases h with ⟨hb, m0, hm0, hmf⟩ | ⟨hb, hm⟩
      · rw [hmf] at hq
        exact hC.preds_pos w m0 hm0 q (mem_decrement_subset hq)
      · exact hC.preds_pos b m hm q hq
    · rw [removeEdge_succsT hg]
      intro a m h q hq
      rcases mget_updMap_cases h with ⟨hb, m0, hm0, hmf⟩ | ⟨hb, hm⟩
      · rw [hmf] at hq
        exact hC.succs_pos v m0 hm0 q (mem_decrement_subset hq)
      · exact hC.succs_pos a m hm q hq

theorem invACore_removeIncident {g : Graph V E} (hC : InvACore g) (ks : List Key) :
    InvACore (removeIncident g ks) :=
  removeIncident_pres InvACore
    (fun g' _ ed _ h => invACore_removeEdge h ed.v ed.w) ks g hC

theorem invA_core {g : Graph V E} (hA : InvA g) : InvACore g :=
  ⟨hA.labels_edges, hA.edges_nodup, hA.edges_shape, hA.ecount, hA.preds_pos,
   hA.succs_pos⟩

theorem invA_removeEdge {g : Graph V E} (hA : InvA g) (v w : Key) :
    InvA (g.removeEdge v w) := by
  have hC : InvACore (g.removeEdge v w) := invACore_removeEdge (invA_core hA) v w
  refine ⟨?_, ?_, ?_, ?_, hC.labels_edges, ?_, hC.edges_nodup, hC.edges_shape,
    ?_, hC.ecount, hC.preds_pos, hC.succs_pos⟩
  · rw [removeEdge_mkeys_inT, removeEdge_nodesT]
    exact hA.dom_in
  · rw [removeEdge_mkeys_outT, removeEdge_nodesT]
    exact hA.dom_out
  · rw [removeEdge_mkeys_predsT, removeEdge_nodesT]
    exact hA.dom_preds
  · rw [removeEdge_mkeys_succsT, removeEdge_nodesT]
    exact hA.dom_succs
  · rw [removeEdge_nodesT]
    exact hA.nodes_nodup
  · rw [removeEdge_nodeCountT, removeEdge_nodesT]
    exact hA.ncount

theorem invA_setEdge {g : Graph V E} (hA : InvA g) (v w : Key) (val : Option E) :
    InvA (g.setEdge v w val) := by
  cases hh : mhas g.edgeLabelsT (edgeArgsToId v w)
  · have hA1 : InvA ((g.setNode v none).setNode w none) :=
      invA_setNode (invA_setNode hA v none) w none
    have hlab1 : ((g.setNode v none).setNode w none).edgeLabelsT = g.edgeLabelsT := by
      rw [setNode_edgeLabelsT, setNode_edgeLabelsT]
    have hedg1 : ((g.setNode v none).setNode w none).edgesT = g.edgesT := by
      rw [setNode_edgesT, setNode_edgesT]
    have hnds1 : ((g.setNode v none).setNode w none).nodesT =
        mset (mset g.nodesT v none) w none := by
      rw [setNode_nodesT, setNode_nodesT]
    have hhe : mhas g.edgesT (edgeArgsToId v w) = false := by
      rw [mhas_eq_false_iff, ← hA.labels_edges, ← mhas_eq_false_iff]
      exact hh
    refine ⟨?_, ?_, ?_, ?_, ?_, ?_, ?_, ?_, ?_, ?_, ?_, ?_⟩
    · rw [setEdgeI_inT hh, mkeys_updMap, setEdgeI_nodesT hh, ← hnds1]
      exact hA1.dom_in
    · rw [setEdgeI_outT hh, mkeys_updMap, setEdgeI_nodesT hh, ← hnds1]
      exact hA1.dom_out
    · rw [setEdgeI_predsT hh, mkeys_updMap, setEdgeI_nodesT hh, ← hnds1]
      exact hA1.dom_preds
    · rw [setEdgeI_succsT hh, mkeys_updMap, setEdgeI_nodesT hh, ← hnds1]
      exact hA1.dom_succs
    · rw [setEdge_edgeLabelsT, setEdgeI_edgesT hh, mkeys_mset_of_not_mhas hh,
        mkeys_mset_of_not_mhas hhe, hA.labels_edges]
    · rw [setEdgeI_nodesT hh, ← hnds1]
      exact hA1.nodes_nodup
    · rw [setEdgeI_edgesT hh]
      exact nodup_mkeys_mset hA.edges_nodup _
    · rw [setEdgeI_edgesT hh]
      intro p hp
      rcases mem_of_mem_mset hp with h | h
      · exact hA.edges_shape p h
      · rw [h]
    · rw [setEdgeI_nodeCountT hh, setEdgeI_nodesT hh, ← hnds1]
      exact hA1.ncount
    · rw [setEdgeI_edgeCountT hh, setEdgeI_edgesT hh, mkeys_mset_of_not_mhas hhe,
        List.length_append, hA.ecount]
      push_cast
      simp
    · rw [setEdgeI_predsT hh]
      intro b m h q hq
      rcases mget_updMap_cases h with ⟨hb, m0, hm0, hmf⟩ | ⟨hb, hm⟩
      · rw [hmf] at hq
        exact pos_incrementOrInit (hA1.preds_pos w m0 hm0) q hq
      · exact hA1.preds_pos b m hm q hq
    · rw [setEdgeI_succsT hh]
      intro a m h q hq
      rcases mget_updMap_cases h with ⟨hb, m0, hm0, hmf⟩ | ⟨hb, hm⟩
      · rw [hmf] at hq
        exact pos_incrementOrInit (hA1.succs_pos v m0 hm0) q hq
      · exact hA1.succs_pos a m hm q hq
  · rw [setEdge_of_has hh]
    refine ⟨hA.dom_in, hA.dom_out, hA.dom_preds, hA.dom_succs, ?_,
      hA.nodes_nodup, hA.edges_nodup, hA.edges_shape, hA.ncount, hA.ecount,
      hA.preds_pos, hA.succs_pos⟩
    show mkeys (mset g.edgeLabelsT (edgeArgsToId v w) val) = mkeys g.edgesT
    rw [mkeys_mset_of_mhas hh]
    exact hA.labels_edges

theorem removeNode_of_not_has {g : Graph V E} {v : Key}
    (h : mhas g.nodesT v = false) : g.removeNode v = g := by
  simp [Graph.removeNode, h]

theorem removeNode_stages {g : Graph V E} {v : Key} (h : mhas g.nodesT v = true)
    (g1 g2 g3 g4 : Graph V E) (ks1 ks2 : List Key)
    (h1 : g1 = { g with nodesT := mdel g.nodesT v })
    (hk1 : ks1 = mkeys ((mget g1.inT v).getD []))
    (h2 : g2 = removeIncident g1 ks1)
    (h3 : g3 = { g2 with inT := mdel g2.inT v, predsT := mdel g2.predsT v })
    (hk2 : ks2 = mkeys ((mget g3.outT v).getD []))
    (h4 : g4 = removeIncident g3 ks2) :
    g.removeNode v = { g4 with
      outT := mdel g4.outT v
      succsT := mdel g4.succsT v
      nodeCountT := g4.nodeCountT - 1 } := by
  subst h1 hk1 h2 h3 hk2 h4
  simp [Graph.removeNode, h]

end InvAPreservation

section InvARemoveNodeRun

variable {V E : Type}

theorem invA_removeNode {g : Graph V E} (hA : InvA g) (v : Key) :
    InvA (g.removeNode v) := by
  cases hv : mhas g.nodesT v
  · rw [removeNode_of_not_has hv]
    exact hA
  · set g1 : Graph V E := { g with nodesT := mdel g.nodesT v } with hg1
    set ks1 : List Key := mkeys ((mget g1.inT v).getD []) with hks1
    set g2 : Graph V E := removeIncident g1 ks1 with hg2
    set g3 : Graph V E :=
      { g2 with inT := mdel g2.inT v, predsT := mdel g2.predsT v } with hg3
    set ks2 : List Key := mkeys ((mget g3.outT v).getD []) with hks2
    set g4 : Graph V E := removeIncident g3 ks2 with hg4
    rw [removeNode_stages hv g1 g2 g3 g4 ks1 ks2 hg1 hks1 hg2 hg3 hks2 hg4]
    have hC1 : InvACore g1 := by
      rw [hg1]
      exact ⟨hA.labels_edges, hA.edges_nodup, hA.edges_shape, hA.ecount,
        hA.preds_pos, hA.succs_pos⟩
    have hC2 : InvACore g2 := by
      rw [hg2]
      exact invACore_removeIncident hC1 ks1
    have hC3 : InvACore g3 := by
      rw [hg3]
      refine ⟨hC2.labels_edges, hC2.edges_nodup, hC2.edges_shape, hC2.ecount,
        ?_, hC2.succs_pos⟩
      intro b m h q hq
      exact hC2.preds_pos b m (mget_mdel_cases h).1 q hq
    have hC4 : InvACore g4 := by
      rw [hg4]
      exact invACore_removeIncident hC3 ks2
    have hin1 : g1.inT = g.inT := by rw [hg1]
    have hout1 : g1.outT = g.outT := by rw [hg1]
    have hpreds1 : g1.predsT = g.predsT := by rw [hg1]
    have hsuccs1 : g1.succsT = g.succsT := by rw [hg1]
    have hnodes1 : g1.nodesT = mdel g.nodesT v := by rw [hg1]
    have hcnt1 : g1.nodeCountT = g.nodeCountT := by rw [hg1]
    have hin2 : mkeys g2.inT = mkeys g1.inT := by
      rw [hg2]
      exact removeIncident_mkeys_inT ks1 g1
    have hout2 : mkeys g2.outT = mkeys g1.outT := by
      rw [hg2]
      exact removeIncident_mkeys_outT ks1 g1
    have hpreds2 : mkeys g2.predsT = mkeys g1.predsT := by
      rw [hg2]
      exact removeIncident_mkeys_predsT ks1 g1
    have hsuccs2 : mkeys g2.succsT = mkeys g1.succsT := by
      rw [hg2]
      exact removeIncident_mkeys_succsT ks1 g1
    have hnodes2 : g2.nodesT = g1.nodesT := by
      rw [hg2]
      exact removeIncident_nodesT ks1 g1
    have hcnt2 : g2.nodeCountT = g1.nodeCountT := by
      rw [hg2]
      exact removeIncident_nodeCountT ks1 g1
    have hin3 : g3.inT = mdel g2.inT v := by rw [hg3]
    have hpreds3 : g3.predsT = mdel g2.predsT v := by rw [hg3]
    have hout3 : g3.outT = g2.outT := by rw [hg3]
    have hsuccs3 : g3.succsT = g2.succsT := by rw [hg3]
    have hnodes3 : g3.nodesT = g2.nodesT := by rw [hg3]
    have hcnt3 : g3.nodeCountT = g2.nodeCountT := by rw [hg3]
    have hin4 : mkeys g4.inT = mkeys g3.inT := by
      rw [hg4]
      exact removeIncident_mkeys_inT ks2 g3
    have hout4 : mkeys g4.outT = mkeys g3.outT := by
      rw [hg4]
      exact removeIncident_mkeys_outT ks2 g3
    have hpreds4 : mkeys g4.predsT = mkeys g3.predsT := by
      rw [hg4]
      exact removeIncident_mkeys_predsT ks2 g3
    have hsuccs4 : mkeys g4.succsT = mkeys g3.succsT := by
      rw [hg4]
      exact removeIncident_mkeys_succsT ks2 g3
    have hnodes4 : g4.nodesT = g3.nodesT := by
      rw [hg4]
      exact removeIncident_nodesT ks2 g3
    have hcnt4 : g4.nodeCountT = g3.nodeCountT := by
      rw [hg4]
      exact removeIncident_nodeCountT ks2 g3
    refine ⟨?_, ?_, ?_, ?_, hC4.labels_edges, ?_, hC4.edges_nodup,
      hC4.edges_shape, ?_, hC4.ecount, hC4.preds_pos, ?_⟩
    · show mkeys g4.inT = mkeys g4.nodesT
      rw [hin4, hin3, mkeys_mdel, hin2, hin1, hA.dom_in, hnodes4, hnodes3,
        hnodes2, hnodes1, mkeys_mdel]
    · show mkeys (mdel g4.outT v) = mkeys g4.nodesT
      rw [mkeys_mdel, hout4, hout3, hout2, hout1, hA.dom_out, hnodes4, hnodes3,
        hnodes2, hnodes1, mkeys_mdel]
    · show mkeys g4.predsT = mkeys g4.nodesT
      rw [hpreds4, hpreds3, mkeys_mdel, hpreds2, hpreds1, hA.dom_preds,
        hnodes4, hnodes3, hnodes2, hnodes1, mkeys_mdel]
    · show mkeys (mdel g4.succsT v) = mkeys g4.nodesT
      rw [mkeys_mdel, hsuccs4, hsuccs3, hsuccs2, hsuccs1, hA.dom_succs,
        hnodes4, hnodes3, hnodes2, hnodes1, mkeys_mdel]
    · show (mkeys g4.nodesT).Nodup
      rw [hnodes4, hnodes3, hnodes2, hnodes1]
      exact nodup_mkeys_mdel _ hA.nodes_nodup
    · show g4.nodeCountT - 1 = ((mkeys g4.nodesT).length : Int)
      rw [hcnt4, hcnt3, hcnt2, hcnt1, hnodes4, hnodes3, hnodes2, hnodes1,
        mkeys_mdel]
      have hmem : v ∈ mkeys g.nodesT := mhas_iff_mem.mp hv
      have hlen := length_filter_ne_of_nodup hA.nodes_nodup hmem
      rw [hA.ncount]
      omega
    · show ∀ a m, mget (mdel g4.succsT v) a = some m → ∀ q ∈ m, 1 ≤ q.2
      intro a m h q hq
      exact hC4.succs_pos a m (mget_mdel_cases h).1 q hq

theorem invA_applyOp {g : Graph V E} (hA : InvA g) (op : Op V E) :
    InvA (applyOp g op) := by
  cases op with
  | setNode k val => exact invA_setNode hA k val
  | removeNode k => exact invA_removeNode hA k
  | setEdge v w val => exact invA_setEdge hA v w val
  | removeEdge v w => exact invA_removeEdge hA v w

theorem invA_run (lab : Option (List Char)) (ops : List (Op V E)) :
    InvA (run lab ops) := by
  have key : ∀ (g : Graph V E), InvA g → InvA (ops.foldl applyOp g) := by
    induction ops with
    | nil => exact fun g h => h
    | cons op ops ih => exact fun g h => ih (applyOp g op) (invA_applyOp h op)
  exact key (Graph.new lab) (invA_new lab)

end InvARemoveNodeRun

/-- C4: after any finite sequence of mutations on a fresh graph, the node
counter equals the number of distinct keys in the node table and the edge
counter equals the number of distinct ordered pairs stored in the edge
table. -/
theorem c4_counters {V E : Type} (lab : Option (List Char)) (ops : List (Op V E)) :
    (run lab ops).nodeCount = (((mkeys (run lab ops).nodesT).dedup.length : Nat) : Int) ∧
    (run lab ops).edgeCount = ((((run lab ops).edgesT.map Prod.snd).dedup.length : Nat) : Int) := by
  have hA := invA_run lab ops
  constructor
  · show (run lab ops).nodeCountT = _
    rw [hA.nodes_nodup.dedup]
    exact hA.ncount
  · show (run lab ops).edgeCountT = _
    have hmap : mkeys (run lab ops).edgesT =
        ((run lab ops).edgesT.map Prod.snd).map (fun ed => edgeArgsToId ed.v ed.w) := by
      rw [List.map_map]
      exact List.map_congr_left (fun p hp => hA.edges_shape p hp)
    have hnd : ((run lab ops).edgesT.map Prod.snd).Nodup := by
      have h := hA.edges_nodup
      rw [hmap] at h
      exact h.of_map
    rw [hnd.dedup, hA.ecount]
    simp [mkeys]

section RestoreLemmas

theorem keys_dec_inc {m : List (Key × Int)} {k : Key}
    (hp : ∀ q ∈ m, 1 ≤ q.2) :
    mkeys (decrementOrRemoveEntry (incrementOrInitEntry m k) k) = mkeys m := by
  rcases hm : mget m k with _ | c0
  · have hnk : mhas m k = false := by simp [mhas, hm]
    have hinc : incrementOrInitEntry m k = m ++ [(k, 1)] := by
      simp only [incrementOrInitEntry, hm, Option.getD_none]
      rw [if_neg (fun h => h rfl), mset, hnk]
      simp
    rw [hinc]
    have hget : mget (m ++ [(k, 1)]) k = some 1 := by
      rw [mget_append_right hm]
      simp [mget]
    simp only [decrementOrRemoveEntry, hget, Option.getD_some]
    rw [if_pos (by norm_num), mdel_append, mdel_of_not_mhas hnk]
    rw [mdel_cons]
    simp [mdel_nil]
  · have hk1 : 1 ≤ c0 := hp (k, c0) (mem_of_mget hm)
    have hc0 : c0 ≠ 0 := by omega
    have hhask : mhas m k = true := by simp [mhas, hm]
    have hinc : incrementOrInitEntry m k = mset m k (c0 + 1) := by
      simp only [incrementOrInitEntry, hm, Option.getD_some]
      rw [if_pos hc0]
    rw [hinc]
    have hget : mget (mset m k (c0 + 1)) k = some (c0 + 1) := mget_mset_self m k _
    simp only [decrementOrRemoveEntry, hget, Option.getD_some]
    rw [if_neg (by omega)]
    exact mkeys_mset_of_mhas hhask _

theorem restore_aux {V E : Type} {g : Graph V E} (hA : InvA g) (a b : Key)
    (val : Option E) (h1 : g.hasNode a = true) (h2 : g.hasNode b = true)
    (h3 : g.hasEdge a b = false) :
    ((g.setEdge a b val).removeEdge a b).successors a = g.successors a ∧
    ((g.setEdge a b val).removeEdge a b).predecessors b = g.predecessors b ∧
    ((g.setEdge a b val).removeEdge a b).hasEdge a b = g.hasEdge a b := by
  have hlabel : mhas g.edgeLabelsT (edgeArgsToId a b) = false := h3
  have hga : mhas g.nodesT a = true := h1
  have hgb : mhas g.nodesT b = true := h2
  have hmb : mhas (mset g.nodesT a none) b = true := by
    by_cases hba : b = a
    · rw [hba]
      exact mhas_mset_self _ _ _
    · rw [mhas_mset_ne hba]
      exact hgb
  have hsuccs1 : ((g.setNode a none).setNode b none).succsT = g.succsT := by
    simp [setNode_succsT, setNode_nodesT, hmb, hga]
  have hpreds1 : ((g.setNode a none).setNode b none).predsT = g.predsT := by
    simp [setNode_predsT, setNode_nodesT, hmb, hga]
  have hS_succs : (g.setEdge a b val).succsT =
      updMap g.succsT a (fun m => incrementOrInitEntry m b) := by
    rw [setEdgeI_succsT hlabel, hsuccs1]
  have hS_preds : (g.setEdge a b val).predsT =
      updMap g.predsT b (fun m => incrementOrInitEntry m a) := by
    rw [setEdgeI_predsT hlabel, hpreds1]
  have hS_labels : (g.setEdge a b val).edgeLabelsT =
      mset g.edgeLabelsT (edgeArgsToId a b) val := setEdge_edgeLabelsT g a b val
  have hguard : mget (g.setEdge a b val).edgesT (edgeArgsToId a b) =
      some ⟨a, b⟩ := by
    rw [setEdgeI_edgesT hlabel]
    exact mget_mset_self _ _ _
  refine ⟨?_, ?_, ?_⟩
  · show (mget ((g.setEdge a b val).removeEdge a b).succsT a).map mkeys =
      (mget g.succsT a).map mkeys
    rw [removeEdge_succsT hguard, mget_updMap_self, hS_succs, mget_updMap_self]
    rcases hma : mget g.succsT a with _ | ma
    · simp
    · simp only [Option.map_some']
      rw [keys_dec_inc (hA.succs_pos a ma hma)]
  · show (mget ((g.setEdge a b val).removeEdge a b).predsT b).map mkeys =
      (mget g.predsT b).map mkeys
    rw [removeEdge_predsT hguard, mget_updMap_self, hS_preds, mget_updMap_self]
    rcases hmb' : mget g.predsT b with _ | mb
    · simp
    · simp only [Option.map_some']
      rw [keys_dec_inc (hA.preds_pos b mb hmb')]
  · show mhas ((g.setEdge a b val).removeEdge a b).edgeLabelsT (edgeArgsToId a b) =
      mhas g.edgeLabelsT (edgeArgsToId a b)
    rw [removeEdge_edgeLabelsT hguard, hS_labels, mdel_mset_self,
      mdel_of_not_mhas hlabel]

end RestoreLemmas

/-- C5 amended: for every state reachable by a sequence of mutations in which
both a and b are present nodes and the edge (a, b) is absent, `setEdge(a, b)`
followed by `removeEdge(a, b)` restores `successors(a)`, `predecessors(b)`
and `hasEdge(a, b)` to their previous values. -/
theorem c5_setEdge_removeEdge_restores {V E : Type} (lab : Option (List Char))
    (ops : List (Op V E)) (a b : Key) (val : Option E)
    (h1 : (run lab ops).hasNode a = true) (h2 : (run lab ops).hasNode b = true)
    (h3 : (run lab ops).hasEdge a b = false) :
    (((run lab ops).setEdge a b val).removeEdge a b).successors a =
      (run lab ops).successors a ∧
    (((run lab ops).setEdge a b val).removeEdge a b).predecessors b =
      (run lab ops).predecessors b ∧
    (((run lab ops).setEdge a b val).removeEdge a b).hasEdge a b =
      (run lab ops).hasEdge a b :=
  restore_aux (invA_run lab ops) a b val h1 h2 h3

/-- C5 witness: the amended statement applied to the two-node edgeless graph
built by two `setNode` calls. -/
theorem c5_setEdge_removeEdge_restores_witness :
    (((run none [Op.setNode ['a'] none, Op.setNode ['b'] none] : Graph Nat Nat).setEdge
        ['a'] ['b'] none).removeEdge ['a'] ['b']).successors ['a'] =
      (run none [Op.setNode ['a'] none, Op.setNode ['b'] none] : Graph Nat Nat).successors ['a'] ∧
    (((run none [Op.setNode ['a'] none, Op.setNode ['b'] none] : Graph Nat Nat).setEdge
        ['a'] ['b'] none).removeEdge ['a'] ['b']).predecessors ['b'] =
      (run none [Op.setNode ['a'] none, Op.setNode ['b'] none] : Graph Nat Nat).predecessors ['b'] ∧
    (((run none [Op.setNode ['a'] none, Op.setNode ['b'] none] : Graph Nat Nat).setEdge
        ['a'] ['b'] none).removeEdge ['a'] ['b']).hasEdge ['a'] ['b'] =
      (run none [Op.setNode ['a'] none, Op.setNode ['b'] none] : Graph Nat Nat).hasEdge ['a'] ['b'] :=
  c5_setEdge_removeEdge_restores none [Op.setNode ['a'] none, Op.setNode ['b'] none]
    ['a'] ['b'] none (by decide) (by decide) (by decide)

section InvCLemmas

variable {V E : Type}

theorem mem_mkeys_mdel {α β : Type _} [DecidableEq α] {m : List (α × β)}
    {u k : α} (h : u ∈ mkeys m) (hne : u ≠ k) : u ∈ mkeys (mdel m k) := by
  rw [mkeys_mdel]
  exact List.mem_filter.mpr ⟨h, decide_eq_true hne⟩

theorem invC_removeEdge {g : Graph V E} (hC : InvC g) {x y : Key}
    (hx : cleanKey x) (hy : cleanKey y) : InvC (g.removeEdge x y) := by
  rcases hg : mget g.edgesT (edgeArgsToId x y) with _ | ed
  · rw [removeEdge_of_none hg]
    exact hC
  · obtain ⟨edv, edw⟩ := ed
    have hmem0 : (edgeArgsToId x y, (⟨edv, edw⟩ : IEdge)) ∈ g.edgesT :=
      mem_of_mget hg
    have hshape0 : edgeArgsToId x y = edgeArgsToId edv edw :=
      hC.edges_shape _ hmem0
    have hclean0 : cleanKey edv ∧ cleanKey edw := hC.edges_clean _ hmem0
    obtain ⟨hvx, hwy⟩ := edgeArgsToId_inj hclean0.1 hclean0.2 hx hy hshape0.symm
    rw [hvx, hwy] at hg
    have hmem : (edgeArgsToId x y, (⟨x, y⟩ : IEdge)) ∈ g.edgesT := mem_of_mget hg
    have hdecp : ∀ m0, mget g.predsT y = some m0 →
        decrementOrRemoveEntry m0 x = mdel m0 x := by
      intro m0 hm0
      have hxmem : x ∈ mkeys m0 := hC.preds_comp _ hmem m0 hm0
      rcases hgx : mget m0 x with _ | c
      · rw [mget_eq_none_iff] at hgx
        exact absurd hxmem hgx
      · have hc1 : c = 1 :=
          (hC.preds_sound y m0 hm0 (x, c) (mem_of_mget hgx)).1
        simp only [decrementOrRemoveEntry, hgx, Option.getD_some, hc1]
        rw [if_pos (by norm_num)]
    have hdecs : ∀ m0, mget g.succsT x = some m0 →
        decrementOrRemoveEntry m0 y = mdel m0 y := by
      intro m0 hm0
      have hymem : y ∈ mkeys m0 := hC.succs_comp _ hmem m0 hm0
      rcases hgy : mget m0 y with _ | c
      · rw [mget_eq_none_iff] at hgy
        exact absurd hymem hgy
      · have hc1 : c = 1 :=
          (hC.succs_sound x m0 hm0 (y, c) (mem_of_mget hgy)).1
        simp only [decrementOrRemoveEntry, hgy, Option.getD_some, hc1]
        rw [if_pos (by norm_num)]
    refine ⟨?_, ?_, ?_, ?_, ?_, ?_, ?_, ?_, ?_, ?_, ?_, ?_⟩
    · rw [removeEdge_edgeLabelsT hg, removeEdge_edgesT hg, mkeys_mdel,
        mkeys_mdel, hC.labels_edges]
    · rw [removeEdge_edgesT hg]
      exact nodup_mkeys_mdel _ hC.edges_nodup
    · rw [removeEdge_edgesT hg]
      intro p hp
      exact hC.edges_shape p (mem_mdel_iff.mp hp).1
    · rw [removeEdge_edgesT hg]
      intro p hp
      exact hC.edges_clean p (mem_mdel_iff.mp hp).1
    · -- in_sound
      rw [removeEdge_inT hg, removeEdge_edgesT hg]
      intro b m h p hp
      rcases mget_updMap_cases h with ⟨hb, m0, hm0, hmf⟩ | ⟨hb, hm⟩
      · rw [hmf] at hp
        obtain ⟨hpm0, hpne⟩ := mem_mdel_iff.mp hp
        obtain ⟨hpe, hpw⟩ := hC.in_sound y m0 hm0 p hpm0
        refine ⟨mem_mdel_iff.mpr ⟨hpe, hpne⟩, ?_⟩
        rw [hb]
        exact hpw
      · obtain ⟨hpe, hpw⟩ := hC.in_sound b m hm p hp
        refine ⟨mem_mdel_iff.mpr ⟨hpe, ?_⟩, hpw⟩
        intro hpeidx
        have hgp : mget g.edgesT p.1 = some p.2 :=
          mget_of_mem_nodup hC.edges_nodup (by
            have hpair : (p.1, p.2) = p := rfl
            rw [hpair]
            exact hpe)
        rw [hpeidx, hg] at hgp
        have h2 : (⟨x, y⟩ : IEdge) = p.2 := by injection hgp
        refine hb ?_
        rw [← hpw, ← h2]
    · -- in_comp
      rw [removeEdge_inT hg, removeEdge_edgesT hg]
      intro p hp
      obtain ⟨hpe, hpne⟩ := mem_mdel_iff.mp hp
      obtain ⟨m0, hm0, hpm0⟩ := hC.in_comp p hpe
      by_cases hw : p.2.w = y
      · refine ⟨mdel m0 (edgeArgsToId x y), ?_, ?_⟩
        · rw [hw] at hm0 ⊢
          rw [mget_updMap_self, hm0]
          rfl
        · exact mem_mdel_iff.mpr ⟨hpm0, hpne⟩
      · refine ⟨m0, ?_, hpm0⟩
        rw [mget_updMap_ne hw]
        exact hm0
    · -- out_shape
      rw [removeEdge_outT hg]
      intro a m h p hp
      rcases mget_updMap_cases h with ⟨hb, m0, hm0, hmf⟩ | ⟨hb, hm⟩
      · subst hb
        rw [hmf] at hp
        exact hC.out_shape a m0 hm0 p (mem_mdel_iff.mp hp).1
      · exact hC.out_shape a m hm p hp
    · -- out_comp
      rw [removeEdge_outT hg, removeEdge_edgesT hg]
      intro p hp
      obtain ⟨hpe, hpne⟩ := mem_mdel_iff.mp hp
      obtain ⟨m0, hm0, hpm0⟩ := hC.out_comp p hpe
      by_cases hv : p.2.v = y
      · refine ⟨mdel m0 (edgeArgsToId x y), ?_, ?_⟩
        · rw [hv] at hm0 ⊢
          rw [mget_updMap_self, hm0]
          rfl
        · exact mem_mdel_iff.mpr ⟨hpm0, hpne⟩
      · refine ⟨m0, ?_, hpm0⟩
        rw [mget_updMap_ne hv]
        exact hm0
    · -- preds_sound
      rw [removeEdge_predsT hg, removeEdge_edgesT hg]
      intro b m h q hq
      rcases mget_updMap_cases h with ⟨hb, m0, hm0, hmf⟩ | ⟨hb, hm⟩
      · rw [hmf, hdecp m0 hm0] at hq
        obtain ⟨hqm0, hqne⟩ := mem_mdel_iff.mp hq
        obtain ⟨hq1, hqedge⟩ := hC.preds_sound y m0 hm0 q hqm0
        refine ⟨hq1, ?_⟩
        rw [hb]
        have hq1c : cleanKey q.1 :=
          (hC.edges_clean _ (mem_of_mget hqedge)).1
        rw [mget_mdel_ne (edgeArgsToId_ne hq1c hy hx hy
          (fun hh => hqne hh.1))]
        exact hqedge
      · obtain ⟨hq1, hqedge⟩ := hC.preds_sound b m hm q hq
        refine ⟨hq1, ?_⟩
        by_cases heq : edgeArgsToId q.1 b = edgeArgsToId x y
        · rw [heq, hg] at hqedge
          have h2 : ({ v := x, w := y } : IEdge) = ⟨q.1, b⟩ := by injection hqedge
          injection h2 with e1 e2
          exact absurd e2.symm hb
        · rw [mget_mdel_ne heq]
          exact hqedge
    · -- preds_comp
      rw [removeEdge_predsT hg, removeEdge_edgesT hg]
      intro p hp m h
      obtain ⟨hpe, hpne⟩ := mem_mdel_iff.mp hp
      rcases mget_updMap_cases h with ⟨hb, m0, hm0, hmf⟩ | ⟨hb, hm⟩
      · rw [hmf, hdecp m0 hm0]
        have hpv : p.2.v ∈ mkeys m0 := hC.preds_comp p hpe m0 (by rw [hb]; exact hm0)
        refine mem_mkeys_mdel hpv ?_
        intro hpvx
        have hshapep : p.1 = edgeArgsToId p.2.v p.2.w := hC.edges_shape p hpe
        rw [hpvx, hb] at hshapep
        exact hpne hshapep
      · exact hC.preds_comp p hpe m hm
    · -- succs_sound
      rw [removeEdge_succsT hg, removeEdge_edgesT hg]
      intro a m h q hq
      rcases mget_updMap_cases h with ⟨hb, m0, hm0, hmf⟩ | ⟨hb, hm⟩
      · rw [hmf, hdecs m0 hm0] at hq
        obtain ⟨hqm0, hqne⟩ := mem_mdel_iff.mp hq
        obtain ⟨hq1, hqedge⟩ := hC.succs_sound x m0 hm0 q hqm0
        refine ⟨hq1, ?_⟩
        rw [hb]
        have hq1c : cleanKey q.1 :=
          (hC.edges_clean _ (mem_of_mget hqedge)).2
        rw [mget_mdel_ne (edgeArgsToId_ne hx hq1c hx hy
          (fun hh => hqne hh.2))]
        exact hqedge
      · obtain ⟨hq1, hqedge⟩ := hC.succs_sound a m hm q hq
        refine ⟨hq1, ?_⟩
        by_cases heq : edgeArgsToId a q.1 = edgeArgsToId x y
        · rw [heq, hg] at hqedge
          have h2 : ({ v := x, w := y } : IEdge) = ⟨a, q.1⟩ := by injection hqedge
          injection h2 with e1 e2
          exact absurd e1.symm hb
        · rw [mget_mdel_ne heq]
          exact hqedge
    · -- succs_comp
      rw [removeEdge_succsT hg, removeEdge_edgesT hg]
      intro p hp m h
      obtain ⟨hpe, hpne⟩ := mem_mdel_iff.mp hp
      rcases mget_updMap_cases h with ⟨hb, m0, hm0, hmf⟩ | ⟨hb, hm⟩
      · rw [hmf, hdecs m0 hm0]
        have hpw : p.2.w ∈ mkeys m0 := hC.succs_comp p hpe m0 (by rw [hb]; exact hm0)
        refine mem_mkeys_mdel hpw ?_
        intro hpwy
        have hshapep : p.1 = edgeArgsToId p.2.v p.2.w := hC.edges_shape p hpe
        rw [hpwy, hb] at hshapep
        exact hpne hshapep
      · exact hC.succs_comp p hpe m hm

end InvCLemmas

section InvCFold

variable {V E : Type}

theorem invC_removeIncident {g : Graph V E} (hC : InvC g) (ks : List Key) :
    InvC (removeIncident g ks) :=
  removeIncident_pres InvC
    (fun g' _ ed hk h =>
      invC_removeEdge h (h.edges_clean _ (mem_of_mget hk)).1
        (h.edges_clean _ (mem_of_mget hk)).2) ks g hC

theorem removeIncident_edgesT_subset {ks : List Key} :
    ∀ {g : Graph V E} {p : Key × IEdge},
    p ∈ (removeIncident g ks).edgesT → p ∈ g.edgesT := by
  induction ks with
  | nil => exact fun h => h
  | cons k0 ks ih =>
    intro g p h
    rcases hk0 : mget g.edgesT k0 with _ | ed0
    · have hred : removeIncident g (k0 :: ks) = removeIncident g ks := by
        simp only [removeIncident, List.foldl_cons, hk0]
      rw [hred] at h
      exact ih h
    · have hred : removeIncident g (k0 :: ks) =
          removeIncident (g.removeEdge ed0.v ed0.w) ks := by
        simp only [removeIncident, List.foldl_cons, hk0]
      rw [hred] at h
      exact removeEdge_edgesT_subset (ih h)

theorem mem_mset_of_not_mhas {α β : Type _} [DecidableEq α] {m : List (α × β)}
    {k : α} {p : α × β} (h : mhas m k = false) (hp : p ∈ m) (v : β) :
    p ∈ mset m k v := by
  refine mem_mset_of_ne hp ?_ v
  intro he
  refine mhas_eq_false_iff.mp h ?_
  rw [← he]
  exact List.mem_map.mpr ⟨p, hp, rfl⟩

theorem mem_mkeys_iff {α β : Type _} {m : List (α × β)} {u : α} :
    u ∈ mkeys m ↔ ∃ c, (u, c) ∈ m := by
  constructor
  · intro h
    rcases List.mem_map.mp h with ⟨p, hp, hfp⟩
    refine ⟨p.2, ?_⟩
    have hpair : (u, p.2) = p := by
      rw [← hfp]
    rw [hpair]
    exact hp
  · rintro ⟨c, hc⟩
    exact List.mem_map.mpr ⟨(u, c), hc, rfl⟩

end InvCFold

section RemoveNodeClean

variable {V E : Type}

theorem removeNode_clean {g : Graph V E} (hB : InvB g) {v : Key}
    (hv : mhas g.nodesT v = true) :
    InvB (g.removeNode v) ∧
    (g.removeNode v).nodesT = mdel g.nodesT v ∧
    (∀ p ∈ (g.removeNode v).edgesT, p.2.v ≠ v ∧ p.2.w ≠ v) := by
  set g1 : Graph V E := { g with nodesT := mdel g.nodesT v } with hg1
  set ks1 : List Key := mkeys ((mget g1.inT v).getD []) with hks1
  set g2 : Graph V E := removeIncident g1 ks1 with hg2
  set g3 : Graph V E :=
    { g2 with inT := mdel g2.inT v, predsT := mdel g2.predsT v } with hg3
  set ks2 : List Key := mkeys ((mget g3.outT v).getD []) with hks2
  set g4 : Graph V E := removeIncident g3 ks2 with hg4
  rw [removeNode_stages hv g1 g2 g3 g4 ks1 ks2 hg1 hks1 hg2 hg3 hks2 hg4]
  have hC : InvC g := hB.core
  have hC1 : InvC g1 := by
    rw [hg1]
    exact ⟨hC.labels_edges, hC.edges_nodup, hC.edges_shape, hC.edges_clean,
      hC.in_sound, hC.in_comp, hC.out_shape, hC.out_comp, hC.preds_sound,
      hC.preds_comp, hC.succs_sound, hC.succs_comp⟩
  have hC2 : InvC g2 := by
    rw [hg2]
    exact invC_removeIncident hC1 ks1
  have hfA : ∀ k ed, mget g2.edgesT k = some ed → ed.w ≠ v := by
    intro k ed hk hedw
    have hk1 : mget g1.edgesT k = some ed := by
      rw [hg2] at hk
      exact removeIncident_mget_edgesT hk
    have hmem1 : (k, ed) ∈ g1.edgesT := mem_of_mget hk1
    obtain ⟨m, hm, hmemm⟩ := hC1.in_comp (k, ed) hmem1
    rw [hedw] at hm
    have hkks : k ∈ ks1 := by
      rw [hks1, hm]
      exact mem_mkeys_iff.mpr ⟨ed, hmemm⟩
    have hnone := removeIncident_clears ks1 g1 hC1.edges_shape k hkks
    rw [← hg2] at hnone
    rw [hnone] at hk
    cases hk
  have hfA' : ∀ p ∈ g2.edgesT, p.2.w ≠ v := by
    intro p hp
    refine hfA p.1 p.2 ?_
    refine mget_of_mem_nodup hC2.edges_nodup ?_
    have hpair : (p.1, p.2) = p := rfl
    rw [hpair]
    exact hp
  have hC3 : InvC g3 := by
    rw [hg3]
    refine ⟨hC2.labels_edges, hC2.edges_nodup, hC2.edges_shape, hC2.edges_clean,
      ?_, ?_, hC2.out_shape, hC2.out_comp, ?_, ?_, hC2.succs_sound,
      hC2.succs_comp⟩
    · intro b m h p hp
      exact hC2.in_sound b m (mget_mdel_cases h).1 p hp
    · intro p hp
      obtain ⟨m, hm, hmm⟩ := hC2.in_comp p hp
      have hne : p.2.w ≠ v := hfA' p hp
      refine ⟨m, ?_, hmm⟩
      show mget (mdel g2.inT v) p.2.w = some m
      rw [mget_mdel_ne hne]
      exact hm
    · intro b m h q hq
      exact hC2.preds_sound b m (mget_mdel_cases h).1 q hq
    · intro p hp m h
      exact hC2.preds_comp p hp m (mget_mdel_cases h).1
  have hC4 : InvC g4 := by
    rw [hg4]
    exact invC_removeIncident hC3 ks2
  have hfB : ∀ k ed, mget g4.edgesT k = some ed → ed.v ≠ v := by
    intro k ed hk hedv
    have hk3 : mget g3.edgesT k = some ed := by
      rw [hg4] at hk
      exact removeIncident_mget_edgesT hk
    have hmem3 : (k, ed) ∈ g3.edgesT := mem_of_mget hk3
    obtain ⟨m, hm, hmemm⟩ := hC3.out_comp (k, ed) hmem3
    rw [hedv] at hm
    have hkks : k ∈ ks2 := by
      rw [hks2, hm]
      exact mem_mkeys_iff.mpr ⟨ed, hmemm⟩
    have hnone := removeIncident_clears ks2 g3 hC3.edges_shape k hkks
    rw [← hg4] at hnone
    rw [hnone] at hk
    cases hk
  have hfB' : ∀ p ∈ g4.edgesT, p.2.v ≠ v := by
    intro p hp
    refine hfB p.1 p.2 ?_
    refine mget_of_mem_nodup hC4.edges_nodup ?_
    have hpair : (p.1, p.2) = p := rfl
    rw [hpair]
    exact hp
  have hsub43 : ∀ p : Key × IEdge, p ∈ g4.edgesT → p ∈ g3.edgesT := by
    intro p hp
    rw [hg4] at hp
    exact removeIncident_edgesT_subset hp
  have hsub32 : ∀ p : Key × IEdge, p ∈ g3.edgesT → p ∈ g2.edgesT := by
    intro p hp
    rw [hg3] at hp
    exact hp
  have hsub21 : ∀ p : Key × IEdge, p ∈ g2.edgesT → p ∈ g1.edgesT := by
    intro p hp
    rw [hg2] at hp
    exact removeIncident_edgesT_subset hp
  have hsub10 : ∀ p : Key × IEdge, p ∈ g1.edgesT → p ∈ g.edgesT := by
    intro p hp
    rw [hg1] at hp
    exact hp
  have hfA4' : ∀ p ∈ g4.edgesT, p.2.w ≠ v := by
    intro p hp
    exact hfA' p (hsub32 p (hsub43 p hp))
  have hR3 : ∀ p ∈ g4.edgesT, p.2.v ≠ v ∧ p.2.w ≠ v :=
    fun p hp => ⟨hfB' p hp, hfA4' p hp⟩
  have hin1 : g1.inT = g.inT := by rw [hg1]
  have hout1 : g1.outT = g.outT := by rw [hg1]
  have hpreds1 : g1.predsT = g.predsT := by rw [hg1]
  have hsuccs1 : g1.succsT = g.succsT := by rw [hg1]
  have hnodes1 : g1.nodesT = mdel g.nodesT v := by rw [hg1]
  have hin2 : mkeys g2.inT = mkeys g1.inT := by
    rw [hg2]
    exact removeIncident_mkeys_inT ks1 g1
  have hout2 : mkeys g2.outT = mkeys g1.outT := by
    rw [hg2]
    exact removeIncident_mkeys_outT ks1 g1
  have hpreds2 : mkeys g2.predsT = mkeys g1.predsT := by
    rw [hg2]
    exact removeIncident_mkeys_predsT ks1 g1
  have hsuccs2 : mkeys g2.succsT = mkeys g1.succsT := by
    rw [hg2]
    exact removeIncident_mkeys_succsT ks1 g1
  have hnodes2 : g2.nodesT = g1.nodesT := by
    rw [hg2]
    exact removeIncident_nodesT ks1 g1
  have hin3 : g3.inT = mdel g2.inT v := by rw [hg3]
  have hpreds3 : g3.predsT = mdel g2.predsT v := by rw [hg3]
  have hout3 : g3.outT = g2.outT := by rw [hg3]
  have hsuccs3 : g3.succsT = g2.succsT := by rw [hg3]
  have hnodes3 : g3.nodesT = g2.nodesT := by rw [hg3]
  have hin4 : mkeys g4.inT = mkeys g3.inT := by
    rw [hg4]
    exact removeIncident_mkeys_inT ks2 g3
  have hout4 : mkeys g4.outT = mkeys g3.outT := by
    rw [hg4]
    exact removeIncident_mkeys_outT ks2 g3
  have hpreds4 : mkeys g4.predsT = mkeys g3.predsT := by
    rw [hg4]
    exact removeIncident_mkeys_predsT ks2 g3
  have hsuccs4 : mkeys g4.succsT = mkeys g3.succsT := by
    rw [hg4]
    exact removeIncident_mkeys_succsT ks2 g3
  have hnodes4 : g4.nodesT = g3.nodesT := by
    rw [hg4]
    exact removeIncident_nodesT ks2 g3
  refine ⟨⟨?_, ?_, ?_, ?_, ?_, ?_, ?_⟩, ?_, ?_⟩
  · refine ⟨hC4.labels_edges, hC4.edges_nodup, hC4.edges_shape, hC4.edges_clean,
      hC4.in_sound, hC4.in_comp, ?_, ?_, hC4.preds_sound, hC4.preds_comp,
      ?_, ?_⟩
    · intro a m h p hp
      exact hC4.out_shape a m (mget_mdel_cases h).1 p hp
    · intro p hp
      obtain ⟨m, hm, hmm⟩ := hC4.out_comp p hp
      have hne : p.2.v ≠ v := hfB' p hp
      refine ⟨m, ?_, hmm⟩
      show mget (mdel g4.outT v) p.2.v = some m
      rw [mget_mdel_ne hne]
      exact hm
    · intro a m h q hq
      exact hC4.succs_sound a m (mget_mdel_cases h).1 q hq
    · intro p hp m h
      exact hC4.succs_comp p hp m (mget_mdel_cases h).1
  · show mkeys g4.inT = mkeys g4.nodesT
    rw [hin4, hin3, mkeys_mdel, hin2, hin1, hB.dom_in, hnodes4, hnodes3,
      hnodes2, hnodes1, mkeys_mdel]
  · show mkeys (mdel g4.outT v) = mkeys g4.nodesT
    rw [mkeys_mdel, hout4, hout3, hout2, hout1, hB.dom_out, hnodes4, hnodes3,
      hnodes2, hnodes1, mkeys_mdel]
  · show mkeys g4.predsT = mkeys g4.nodesT
    rw [hpreds4, hpreds3, mkeys_mdel, hpreds2, hpreds1, hB.dom_preds, hnodes4,
      hnodes3, hnodes2, hnodes1, mkeys_mdel]
  · show mkeys (mdel g4.succsT v) = mkeys g4.nodesT
    rw [mkeys_mdel, hsuccs4, hsuccs3, hsuccs2, hsuccs1, hB.dom_succs, hnodes4,
      hnodes3, hnodes2, hnodes1, mkeys_mdel]
  · show ∀ k ∈ mkeys g4.nodesT, cleanKey k
    intro k hk
    rw [hnodes4, hnodes3, hnodes2, hnodes1, mkeys_mdel] at hk
    exact hB.nodes_clean k (List.mem_filter.mp hk).1
  · show ∀ p ∈ g4.edgesT, p.2.v ∈ mkeys g4.nodesT ∧ p.2.w ∈ mkeys g4.nodesT
    intro p hp
    have hpg : p ∈ g.edgesT := hsub10 p (hsub21 p (hsub32 p (hsub43 p hp)))
    obtain ⟨hev, hew⟩ := hB.edges_endpoints p hpg
    obtain ⟨hnv, hnw⟩ := hR3 p hp
    rw [hnodes4, hnodes3, hnodes2, hnodes1]
    exact ⟨mem_mkeys_mdel hev hnv, mem_mkeys_mdel hew hnw⟩
  · show g4.nodesT = mdel g.nodesT v
    rw [hnodes4, hnodes3, hnodes2, hnodes1]
  · show ∀ p ∈ g4.edgesT, p.2.v ≠ v ∧ p.2.w ≠ v
    exact hR3

end RemoveNodeClean

section InvBPreservation

variable {V E : Type}

theorem invB_new (lab : Option (List Char)) : InvB (Graph.new lab : Graph V E) := by
  refine ⟨⟨rfl, List.nodup_nil, ?_, ?_, ?_, ?_, ?_, ?_, ?_, ?_, ?_, ?_⟩,
    rfl, rfl, rfl, rfl, ?_, ?_⟩
  · intro p hp
    cases hp
  · intro p hp
    cases hp
  · intro b m h
    cases h
  · intro p hp
    cases hp
  · intro a m h
    cases h
  · intro p hp
    cases hp
  · intro b m h
    cases h
  · intro p hp
    cases hp
  · intro a m h
    cases h
  · intro p hp
    cases hp
  · intro k hk
    cases hk
  · intro p hp
    cases hp

theorem invB_removeEdge {g : Graph V E} (hB : InvB g) {x y : Key}
    (hx : cleanKey x) (hy : cleanKey y) : InvB (g.removeEdge x y) := by
  refine ⟨invC_removeEdge hB.core hx hy, ?_, ?_, ?_, ?_, ?_, ?_⟩
  · rw [removeEdge_mkeys_inT, removeEdge_nodesT]
    exact hB.dom_in
  · rw [removeEdge_mkeys_outT, removeEdge_nodesT]
    exact hB.dom_out
  · rw [removeEdge_mkeys_predsT, removeEdge_nodesT]
    exact hB.dom_preds
  · rw [removeEdge_mkeys_succsT, removeEdge_nodesT]
    exact hB.dom_succs
  · rw [removeEdge_nodesT]
    exact hB.nodes_clean
  · intro p hp
    rw [removeEdge_nodesT]
    exact hB.edges_endpoints p (removeEdge_edgesT_subset hp)

theorem invB_setNode {g : Graph V E} (hB : InvB g) (k : Key) (val : Option V)
    (hk : cleanKey k) : InvB (g.setNode k val) := by
  cases hkn : mhas g.nodesT k
  · have hknodes : k ∉ mkeys g.nodesT := mhas_eq_false_iff.mp hkn
    have hkin : mget g.inT k = none := by
      rw [mget_eq_none_iff, hB.dom_in]
      exact hknodes
    have hkout : mget g.outT k = none := by
      rw [mget_eq_none_iff, hB.dom_out]
      exact hknodes
    have hkp : mget g.predsT k = none := by
      rw [mget_eq_none_iff, hB.dom_preds]
      exact hknodes
    have hks : mget g.succsT k = none := by
      rw [mget_eq_none_iff, hB.dom_succs]
      exact hknodes
    have hkinF : mhas g.inT k = false := by
      rw [mhas_eq_false_iff, hB.dom_in]
      exact hknodes
    have hkoutF : mhas g.outT k = false := by
      rw [mhas_eq_false_iff, hB.dom_out]
      exact hknodes
    have hkpF : mhas g.predsT k = false := by
      rw [mhas_eq_false_iff, hB.dom_preds]
      exact hknodes
    have hksF : mhas g.succsT k = false := by
      rw [mhas_eq_false_iff, hB.dom_succs]
      exact hknodes
    rw [setNode_of_not_has hkn]
    refine ⟨⟨hB.core.labels_edges, hB.core.edges_nodup, hB.core.edges_shape,
      hB.core.edges_clean, ?_, ?_, ?_, ?_, ?_, ?_, ?_, ?_⟩,
      ?_, ?_, ?_, ?_, ?_, ?_⟩
    · show ∀ b m, mget (mset g.inT k []) b = some m → ∀ p ∈ m, p ∈ g.edgesT ∧ p.2.w = b
      intro b m h p hp
      by_cases hb : b = k
      · rw [hb, mget_mset_self] at h
        have hm : ([] : List (Key × IEdge)) = m := by injection h
        rw [← hm] at hp
        cases hp
      · rw [mget_mset_ne hb] at h
        exact hB.core.in_sound b m h p hp
    · show ∀ p ∈ g.edgesT, ∃ m, mget (mset g.inT k []) p.2.w = some m ∧ p ∈ m
      intro p hp
      obtain ⟨m, hm, hmm⟩ := hB.core.in_comp p hp
      have hne : p.2.w ≠ k :=
        fun he => hknodes (he ▸ (hB.edges_endpoints p hp).2)
      refine ⟨m, ?_, hmm⟩
      rw [mget_mset_ne hne]
      exact hm
    · show ∀ a m, mget (mset g.outT k []) a = some m → ∀ p ∈ m, _
      intro a m h p hp
      by_cases hb : a = k
      · rw [hb, mget_mset_self] at h
        have hm : ([] : List (Key × IEdge)) = m := by injection h
        rw [← hm] at hp
        cases hp
      · rw [mget_mset_ne hb] at h
        exact hB.core.out_shape a m h p hp
    · show ∀ p ∈ g.edgesT, ∃ m, mget (mset g.outT k []) p.2.v = some m ∧ p ∈ m
      intro p hp
      obtain ⟨m, hm, hmm⟩ := hB.core.out_comp p hp
      have hne : p.2.v ≠ k :=
        fun he => hknodes (he ▸ (hB.edges_endpoints p hp).1)
      refine ⟨m, ?_, hmm⟩
      rw [mget_mset_ne hne]
      exact hm
    · show ∀ b m, mget (mset g.predsT k []) b = some m → ∀ q ∈ m, _
      intro b m h q hq
      by_cases hb : b = k
      · rw [hb, mget_mset_self] at h
        have hm : ([] : List (Key × Int)) = m := by injection h
        rw [← hm] at hq
        cases hq
      · rw [mget_mset_ne hb] at h
        exact hB.core.preds_sound b m h q hq
    · show ∀ p ∈ g.edgesT, ∀ m, mget (mset g.predsT k []) p.2.w = some m → p.2.v ∈ mkeys m
      intro p hp m h
      have hne : p.2.w ≠ k :=
        fun he => hknodes (he ▸ (hB.edges_endpoints p hp).2)
      rw [mget_mset_ne hne] at h
      exact hB.core.preds_comp p hp m h
    · show ∀ a m, mget (mset g.succsT k []) a = some m → ∀ q ∈ m, _
      intro a m h q hq
      by_cases hb : a = k
      · rw [hb, mget_mset_self] at h
        have hm : ([] : List (Key × Int)) = m := by injection h
        rw [← hm] at hq
        cases hq
      · rw [mget_mset_ne hb] at h
        exact hB.core.succs_sound a m h q hq
    · show ∀ p ∈ g.edgesT, ∀ m, mget (mset g.succsT k []) p.2.v = some m → p.2.w ∈ mkeys m
      intro p hp m h
      have hne : p.2.v ≠ k :=
        fun he => hknodes (he ▸ (hB.edges_endpoints p hp).1)
      rw [mget_mset_ne hne] at h
      exact hB.core.succs_comp p hp m h
    · show mkeys (mset g.inT k []) = mkeys (mset g.nodesT k val)
      rw [mkeys_mset_of_not_mhas hkinF, mkeys_mset_of_not_mhas hkn, hB.dom_in]
    · show mkeys (mset g.outT k []) = mkeys (mset g.nodesT k val)
      rw [mkeys_mset_of_not_mhas hkoutF, mkeys_mset_of_not_mhas hkn, hB.dom_out]
    · show mkeys (mset g.predsT k []) = mkeys (mset g.nodesT k val)
      rw [mkeys_mset_of_not_mhas hkpF, mkeys_mset_of_not_mhas hkn, hB.dom_preds]
    · show mkeys (mset g.succsT k []) = mkeys (mset g.nodesT k val)
      rw [mkeys_mset_of_not_mhas hksF, mkeys_mset_of_not_mhas hkn, hB.dom_succs]
    · show ∀ u ∈ mkeys (mset g.nodesT k val), cleanKey u
      intro u hu
      rw [mkeys_mset_of_not_mhas hkn] at hu
      rcases List.mem_append.mp hu with hu | hu
      · exact hB.nodes_clean u hu
      · rw [List.mem_singleton.mp hu]
        exact hk
    · show ∀ p ∈ g.edgesT, p.2.v ∈ mkeys (mset g.nodesT k val) ∧ p.2.w ∈ mkeys (mset g.nodesT k val)
      intro p hp
      obtain ⟨h1, h2⟩ := hB.edges_endpoints p hp
      rw [mkeys_mset_of_not_mhas hkn]
      exact ⟨List.mem_append_left _ h1, List.mem_append_left _ h2⟩
  · rw [setNode_of_has hkn]
    refine ⟨⟨hB.core.labels_edges, hB.core.edges_nodup, hB.core.edges_shape,
      hB.core.edges_clean, hB.core.in_sound, hB.core.in_comp, hB.core.out_shape,
      hB.core.out_comp, hB.core.preds_sound, hB.core.preds_comp,
      hB.core.succs_sound, hB.core.succs_comp⟩, ?_, ?_, ?_, ?_, ?_, ?_⟩
    · show mkeys g.inT = mkeys (mset g.nodesT k val)
      rw [mkeys_mset_of_mhas hkn]
      exact hB.dom_in
    · show mkeys g.outT = mkeys (mset g.nodesT k val)
      rw [mkeys_mset_of_mhas hkn]
      exact hB.dom_out
    · show mkeys g.predsT = mkeys (mset g.nodesT k val)
      rw [mkeys_mset_of_mhas hkn]
      exact hB.dom_preds
    · show mkeys g.succsT = mkeys (mset g.nodesT k val)
      rw [mkeys_mset_of_mhas hkn]
      exact hB.dom_succs
    · show ∀ u ∈ mkeys (mset g.nodesT k val), cleanKey u
      intro u hu
      rw [mkeys_mset_of_mhas hkn] at hu
      exact hB.nodes_clean u hu
    · show ∀ p ∈ g.edgesT, p.2.v ∈ mkeys (mset g.nodesT k val) ∧ p.2.w ∈ mkeys (mset g.nodesT k val)
      intro p hp
      rw [mkeys_mset_of_mhas hkn]
      exact hB.edges_endpoints p hp

end InvBPreservation

section InvBSetEdge

variable {V E : Type}

theorem mem_mkeys_inc (m : List (Key × Int)) (k : Key) :
    k ∈ mkeys (incrementOrInitEntry m k) := by
  simp only [incrementOrInitEntry]
  split
  · exact mkeys_mem_of_mget (mget_mset_self _ _ _)
  · exact mkeys_mem_of_mget (mget_mset_self _ _ _)

theorem invB_setEdge {g : Graph V E} (hB : InvB g) {v w : Key} (val : Option E)
    (hv : cleanKey v) (hw : cleanKey w) : InvB (g.setEdge v w val) := by
  cases hh : mhas g.edgeLabelsT (edgeArgsToId v w)
  case false =>
    have hB1 : InvB ((g.setNode v none).setNode w none) :=
      invB_setNode (invB_setNode hB v none hv) w none hw
    have hlab1 : ((g.setNode v none).setNode w none).edgeLabelsT = g.edgeLabelsT := by
      rw [setNode_edgeLabelsT, setNode_edgeLabelsT]
    have hedg1 : ((g.setNode v none).setNode w none).edgesT = g.edgesT := by
      rw [setNode_edgesT, setNode_edgesT]
    have hnds1 : ((g.setNode v none).setNode w none).nodesT =
        mset (mset g.nodesT v none) w none := by
      rw [setNode_nodesT, setNode_nodesT]
    have hedge1 : mhas g.edgesT (edgeArgsToId v w) = false := by
      rw [mhas_eq_false_iff, ← hB.core.labels_edges, ← mhas_eq_false_iff]
      exact hh
    have hedgek : edgeArgsToId v w ∉ mkeys g.edgesT := mhas_eq_false_iff.mp hedge1
    have hnodesv : mhas ((g.setNode v none).setNode w none).nodesT v = true := by
      rw [hnds1]
      by_cases hvw : v = w
      · rw [hvw]
        exact mhas_mset_self _ _ _
      · rw [mhas_mset_ne hvw]
        exact mhas_mset_self _ _ _
    have hnodesw : mhas ((g.setNode v none).setNode w none).nodesT w = true := by
      rw [hnds1]
      exact mhas_mset_self _ _ _
    obtain ⟨mIn, hmIn⟩ : ∃ m, mget ((g.setNode v none).setNode w none).inT w = some m := by
      refine Option.isSome_iff_exists.mp (mget_isSome_of_mem_mkeys ?_)
      rw [hB1.dom_in]
      exact mhas_iff_mem.mp hnodesw
    obtain ⟨mOut, hmOut⟩ : ∃ m, mget ((g.setNode v none).setNode w none).outT v = some m := by
      refine Option.isSome_iff_exists.mp (mget_isSome_of_mem_mkeys ?_)
      rw [hB1.dom_out]
      exact mhas_iff_mem.mp hnodesv
    have hkeep : ∀ (α β : Key), cleanKey α → cleanKey β → ¬(α = v ∧ β = w) →
        mget (mset g.edgesT (edgeArgsToId v w) ⟨v, w⟩) (edgeArgsToId α β) =
          mget g.edgesT (edgeArgsToId α β) :=
      fun α β hα hβ hne => mget_mset_ne (edgeArgsToId_ne hα hβ hv hw hne) _ _
    have hmemnew : (edgeArgsToId v w, (⟨v, w⟩ : IEdge)) ∈
        mset g.edgesT (edgeArgsToId v w) ⟨v, w⟩ := mem_mset_self _ _ _
    have hold_mem : ∀ p : Key × IEdge, p ∈ g.edgesT →
        p ∈ mset g.edgesT (edgeArgsToId v w) ⟨v, w⟩ :=
      fun p hp => mem_mset_of_not_mhas hedge1 hp _
    refine ⟨⟨?_, ?_, ?_, ?_, ?_, ?_, ?_, ?_, ?_, ?_, ?_, ?_⟩, ?_, ?_, ?_, ?_, ?_, ?_⟩
    · rw [setEdge_edgeLabelsT, setEdgeI_edgesT hh, mkeys_mset_of_not_mhas hh,
        mkeys_mset_of_not_mhas hedge1, hB.core.labels_edges]
    · rw [setEdgeI_edgesT hh]
      exact nodup_mkeys_mset hB.core.edges_nodup _
    · rw [setEdgeI_edgesT hh]
      intro p hp
      rcases mem_of_mem_mset hp with h | h
      · exact hB.core.edges_shape p h
      · rw [h]
    · rw [setEdgeI_edgesT hh]
      intro p hp
      rcases mem_of_mem_mset hp with h | h
      · exact hB.core.edges_clean p h
      · rw [h]
        exact ⟨hv, hw⟩
    · -- in_sound
      rw [setEdgeI_inT hh, setEdgeI_edgesT hh]
      intro b m h p hp
      rcases mget_updMap_cases h with ⟨hb, m0, hm0, hmf⟩ | ⟨hb, hm⟩
      · rw [hmf] at hp
        rcases mem_of_mem_mset hp with hpm | hpe
        · obtain ⟨hpedges, hpw⟩ := hB1.core.in_sound w m0 hm0 p hpm
          rw [hedg1] at hpedges
          refine ⟨hold_mem p hpedges, ?_⟩
          rw [hb]
          exact hpw
        · rw [hpe]
          refine ⟨hmemnew, ?_⟩
          rw [hb]
      · obtain ⟨hpedges, hpw⟩ := hB1.core.in_sound b m hm p hp
        rw [hedg1] at hpedges
        exact ⟨hold_mem p hpedges, hpw⟩
    · -- in_comp
      rw [setEdgeI_inT hh, setEdgeI_edgesT hh]
      intro p hp
      rcases mem_of_mem_mset hp with hpm | hpe
      · obtain ⟨m0, hm0, hmm⟩ := hB1.core.in_comp p (by rw [hedg1]; exact hpm)
        have hp1ne : p.1 ≠ edgeArgsToId v w := by
          intro he
          exact hedgek (he ▸ List.mem_map.mpr ⟨p, hpm, rfl⟩)
        by_cases hpw : p.2.w = w
        · refine ⟨mset m0 (edgeArgsToId v w) ⟨v, w⟩, ?_, mem_mset_of_ne hmm hp1ne _⟩
          rw [hpw] at hm0 ⊢
          rw [mget_updMap_self, hm0]
          rfl
        · refine ⟨m0, ?_, hmm⟩
          rw [mget_updMap_ne hpw]
          exact hm0
      · rw [hpe]
        refine ⟨mset mIn (edgeArgsToId v w) ⟨v, w⟩, ?_, mem_mset_self _ _ _⟩
        show mget (updMap ((g.setNode v none).setNode w none).inT w
          (fun m => mset m (edgeArgsToId v w) ⟨v, w⟩)) w =
          some (mset mIn (edgeArgsToId v w) ⟨v, w⟩)
        rw [mget_updMap_self, hmIn]
        rfl
    · -- out_shape
      rw [setEdgeI_outT hh]
      intro a m h p hp
      rcases mget_updMap_cases h with ⟨hb, m0, hm0, hmf⟩ | ⟨hb, hm⟩
      · rw [hmf] at hp
        rcases mem_of_mem_mset hp with hpm | hpe
        · obtain ⟨h1, h2, h3, h4⟩ := hB1.core.out_shape v m0 hm0 p hpm
          refine ⟨?_, h2, h3, h4⟩
          rw [hb]
          exact h1
        · rw [hpe]
          exact ⟨hb.symm, rfl, hv, hw⟩
      · exact hB1.core.out_shape a m hm p hp
    · -- out_comp
      rw [setEdgeI_outT hh, setEdgeI_edgesT hh]
      intro p hp
      rcases mem_of_mem_mset hp with hpm | hpe
      · obtain ⟨m0, hm0, hmm⟩ := hB1.core.out_comp p (by rw [hedg1]; exact hpm)
        have hp1ne : p.1 ≠ edgeArgsToId v w := by
          intro he
          exact hedgek (he ▸ List.mem_map.mpr ⟨p, hpm, rfl⟩)
        by_cases hpv : p.2.v = v
        · refine ⟨mset m0 (edgeArgsToId v w) ⟨v, w⟩, ?_, mem_mset_of_ne hmm hp1ne _⟩
          rw [hpv] at hm0 ⊢
          rw [mget_updMap_self, hm0]
          rfl
        · refine ⟨m0, ?_, hmm⟩
          rw [mget_updMap_ne hpv]
          exact hm0
      · rw [hpe]
        refine ⟨mset mOut (edgeArgsToId v w) ⟨v, w⟩, ?_, mem_mset_self _ _ _⟩
        show mget (updMap ((g.setNode v none).setNode w none).outT v
          (fun m => mset m (edgeArgsToId v w) ⟨v, w⟩)) v =
          some (mset mOut (edgeArgsToId v w) ⟨v, w⟩)
        rw [mget_updMap_self, hmOut]
        rfl
    · -- preds_sound
      rw [setEdgeI_predsT hh, setEdgeI_edgesT hh]
      intro b m h q hq
      rcases mget_updMap_cases h with ⟨hb, m0, hm0, hmf⟩ | ⟨hb, hm⟩
      · have hvnm0 : mget m0 v = none := by
          rcases hc : mget m0 v with _ | c
          · rfl
          · obtain ⟨-, hedge⟩ := hB1.core.preds_sound w m0 hm0 (v, c) (mem_of_mget hc)
            rw [hedg1] at hedge
            exact absurd (mkeys_mem_of_mget hedge) hedgek
        have hinc : incrementOrInitEntry m0 v = mset m0 v 1 := by
          simp only [incrementOrInitEntry, hvnm0, Option.getD_none]
          rw [if_neg (fun hc => hc rfl)]
        rw [hmf, hinc] at hq
        rcases mem_of_mem_mset hq with hqm | hqe
        · obtain ⟨hq1, hqedge⟩ := hB1.core.preds_sound w m0 hm0 q hqm
          rw [hedg1] at hqedge
          refine ⟨hq1, ?_⟩
          rw [hb]
          have hq1c : cleanKey q.1 :=
            (hB.core.edges_clean _ (mem_of_mget hqedge)).1
          have hq1v : q.1 ≠ v := by
            intro he
            rw [he] at hqedge
            exact hedgek (mkeys_mem_of_mget hqedge)
          rw [hkeep q.1 w hq1c hw (fun hc => hq1v hc.1)]
          exact hqedge
        · rw [hqe]
          refine ⟨rfl, ?_⟩
          rw [hb]
          show mget (mset g.edgesT (edgeArgsToId v w) ⟨v, w⟩) (edgeArgsToId v w) =
            some ⟨v, w⟩
          exact mget_mset_self _ _ _
      · obtain ⟨hq1, hqedge⟩ := hB1.core.preds_sound b m hm q hq
        rw [hedg1] at hqedge
        refine ⟨hq1, ?_⟩
        have hq1c : cleanKey q.1 :=
          (hB.core.edges_clean _ (mem_of_mget hqedge)).1
        have hbc : cleanKey b :=
          (hB.core.edges_clean _ (mem_of_mget hqedge)).2
        rw [hkeep q.1 b hq1c hbc (fun hc => hb hc.2)]
        exact hqedge
    · -- preds_comp
      rw [setEdgeI_predsT hh, setEdgeI_edgesT hh]
      intro p hp m h
      rcases mem_of_mem_mset hp with hpm | hpe
      · rcases mget_updMap_cases h with ⟨hb, m0, hm0, hmf⟩ | ⟨hb, hm⟩
        · have hcomp : p.2.v ∈ mkeys m0 :=
            hB1.core.preds_comp p (by rw [hedg1]; exact hpm) m0
              (by rw [hb]; exact hm0)
          have hvnm0 : mget m0 v = none := by
            rcases hc : mget m0 v with _ | c
            · rfl
            · obtain ⟨-, hedge⟩ := hB1.core.preds_sound w m0 hm0 (v, c) (mem_of_mget hc)
              rw [hedg1] at hedge
              exact absurd (mkeys_mem_of_mget hedge) hedgek
          have hinc : incrementOrInitEntry m0 v = mset m0 v 1 := by
            simp only [incrementOrInitEntry, hvnm0, Option.getD_none]
            rw [if_neg (fun hc => hc rfl)]
          have hm0has : mhas m0 v = false := by simp [mhas, hvnm0]
          rw [hmf, hinc, mkeys_mset_of_not_mhas hm0has]
          exact List.mem_append_left _ hcomp
        · exact hB1.core.preds_comp p (by rw [hedg1]; exact hpm) m hm
      · rw [hpe] at h ⊢
        rcases mget_updMap_cases h with ⟨-, m0, hm0, hmf⟩ | ⟨hb, -⟩
        · rw [hmf]
          exact mem_mkeys_inc m0 v
        · exact absurd rfl hb
    · -- succs_sound
      rw [setEdgeI_succsT hh, setEdgeI_edgesT hh]
      intro a m h q hq
      rcases mget_updMap_cases h with ⟨hb, m0, hm0, hmf⟩ | ⟨hb, hm⟩
      · have hwnm0 : mget m0 w = none := by
          rcases hc : mget m0 w with _ | c
          · rfl
          · obtain ⟨-, hedge⟩ := hB1.core.succs_sound v m0 hm0 (w, c) (mem_of_mget hc)
            rw [hedg1] at hedge
            exact absurd (mkeys_mem_of_mget hedge) hedgek
        have hinc : incrementOrInitEntry m0 w = mset m0 w 1 := by
          simp only [incrementOrInitEntry, hwnm0, Option.getD_none]
          rw [if_neg (fun hc => hc rfl)]
        rw [hmf, hinc] at hq
        rcases mem_of_mem_mset hq with hqm | hqe
        · obtain ⟨hq1, hqedge⟩ := hB1.core.succs_sound v m0 hm0 q hqm
          rw [hedg1] at hqedge
          refine ⟨hq1, ?_⟩
          rw [hb]
          have hq1c : cleanKey q.1 :=
            (hB.core.edges_clean _ (mem_of_mget hqedge)).2
          have hq1w : q.1 ≠ w := by
            intro he
            rw [he] at hqedge
            exact hedgek (mkeys_mem_of_mget hqedge)
          rw [hkeep v q.1 hv hq1c (fun hc => hq1w hc.2)]
          exact hqedge
        · rw [hqe]
          refine ⟨rfl, ?_⟩
          rw [hb]
          show mget (mset g.edgesT (edgeArgsToId v w) ⟨v, w⟩) (edgeArgsToId v w) =
            some ⟨v, w⟩
          exact mget_mset_self _ _ _
      · obtain ⟨hq1, hqedge⟩ := hB1.core.succs_sound a m hm q hq
        rw [hedg1] at hqedge
        refine ⟨hq1, ?_⟩
        have hac : cleanKey a :=
          (hB.core.edges_clean _ (mem_of_mget hqedge)).1
        have hq1c : cleanKey q.1 :=
          (hB.core.edges_clean _ (mem_of_mget hqedge)).2
        rw [hkeep a q.1 hac hq1c (fun hc => hb hc.1)]
        exact hqedge
    · -- succs_comp
      rw [setEdgeI_succsT hh, setEdgeI_edgesT hh]
      intro p hp m h
      rcases mem_of_mem_mset hp with hpm | hpe
      · rcases mget_updMap_cases h with ⟨hb, m0, hm0, hmf⟩ | ⟨hb, hm⟩
        · have hcomp : p.2.w ∈ mkeys m0 :=
            hB1.core.succs_comp p (by rw [hedg1]; exact hpm) m0
              (by rw [hb]; exact hm0)
          have hwnm0 : mget m0 w = none := by
            rcases hc : mget m0 w with _ | c
            · rfl
            · obtain ⟨-, hedge⟩ := hB1.core.succs_sound v m0 hm0 (w, c) (mem_of_mget hc)
              rw [hedg1] at hedge
              exact absurd (mkeys_mem_of_mget hedge) hedgek
          have hinc : incrementOrInitEntry m0 w = mset m0 w 1 := by
            simp only [incrementOrInitEntry, hwnm0, Option.getD_none]
            rw [if_neg (fun hc => hc rfl)]
          have hm0has : mhas m0 w = false := by simp [mhas, hwnm0]
          rw [hmf, hinc, mkeys_mset_of_not_mhas hm0has]
          exact List.mem_append_left _ hcomp
        · exact hB1.core.succs_comp p (by rw [hedg1]; exact hpm) m hm
      · rw [hpe] at h ⊢
        rcases mget_updMap_cases h with ⟨-, m0, hm0, hmf⟩ | ⟨hb, -⟩
        · rw [hmf]
          exact mem_mkeys_inc m0 w
        · exact absurd rfl hb
    · rw [setEdgeI_inT hh, mkeys_updMap, setEdgeI_nodesT hh, ← hnds1]
      exact hB1.dom_in
    · rw [setEdgeI_outT hh, mkeys_updMap, setEdgeI_nodesT hh, ← hnds1]
      exact hB1.dom_out
    · rw [setEdgeI_predsT hh, mkeys_updMap, setEdgeI_nodesT hh, ← hnds1]
      exact hB1.dom_preds
    · rw [setEdgeI_succsT hh, mkeys_updMap, setEdgeI_nodesT hh, ← hnds1]
      exact hB1.dom_succs
    · rw [setEdgeI_nodesT hh, ← hnds1]
      exact hB1.nodes_clean
    · rw [setEdgeI_edgesT hh, setEdgeI_nodesT hh, ← hnds1]
      intro p hp
      rcases mem_of_mem_mset hp with hpm | hpe
      · exact hB1.edges_endpoints p (by rw [hedg1]; exact hpm)
      · rw [hpe]
        exact ⟨mhas_iff_mem.mp hnodesv, mhas_iff_mem.mp hnodesw⟩
  case true =>
    rw [setEdge_of_has hh]
    refine ⟨⟨?_, hB.core.edges_nodup, hB.core.edges_shape, hB.core.edges_clean,
      hB.core.in_sound, hB.core.in_comp, hB.core.out_shape, hB.core.out_comp,
      hB.core.preds_sound, hB.core.preds_comp, hB.core.succs_sound,
      hB.core.succs_comp⟩, hB.dom_in, hB.dom_out, hB.dom_preds, hB.dom_succs,
      hB.nodes_clean, hB.edges_endpoints⟩
    show mkeys (mset g.edgeLabelsT (edgeArgsToId v w) val) = mkeys g.edgesT
    rw [mkeys_mset_of_mhas hh]
    exact hB.core.labels_edges

end InvBSetEdge

section InvBRun

variable {V E : Type}

theorem invB_applyOp {g : Graph V E} (hB : InvB g) {op : Op V E}
    (hc : Op.clean op) : InvB (applyOp g op) := by
  cases op with
  | setNode k val =>
    show InvB (g.setNode k val)
    exact invB_setNode hB k val hc
  | removeNode k =>
    show InvB (g.removeNode k)
    cases hv : mhas g.nodesT k with
    | false =>
      rw [removeNode_of_not_has hv]
      exact hB
    | true => exact (removeNode_clean hB hv).1
  | setEdge v w val =>
    show InvB (g.setEdge v w val)
    exact invB_setEdge hB val hc.1 hc.2
  | removeEdge v w =>
    show InvB (g.removeEdge v w)
    exact invB_removeEdge hB hc.1 hc.2

theorem invB_foldl (ops : List (Op V E)) :
    ∀ g : Graph V E, InvB g → (∀ op ∈ ops, Op.clean op) →
    InvB (ops.foldl applyOp g) := by
  induction ops with
  | nil =>
    intro g hg _
    exact hg
  | cons op rest ih =>
    intro g hg hcl
    exact ih _ (invB_applyOp hg (hcl op (List.mem_cons_self _ _)))
      (fun o ho => hcl o (List.mem_cons_of_mem _ ho))

theorem invB_run (lab : Option (List Char)) (ops : List (Op V E))
    (hclean : ∀ op ∈ ops, Op.clean op) : InvB (run lab ops) :=
  invB_foldl ops _ (invB_new lab) hclean

end InvBRun

/-- C6 (amended): for graphs built by any sequence of operations whose keys
avoid the delimiter character U+0001, `removeNode(v)` of a present node
removes `v` itself, leaves no remaining node listing `v` among its
predecessors or successors, and leaves no stored edge with `v` as an
endpoint; `removeNode` of an absent key leaves the graph unchanged. -/
theorem c6_removeNode_clean {V E : Type} (lab : Option (List Char))
    (ops : List (Op V E)) (v b : Key) (l : List Key) (ed : IEdge)
    (hclean : ∀ op ∈ ops, Op.clean op) :
    ((run lab ops).hasNode v = true →
      ((run lab ops).removeNode v).hasNode v = false ∧
      (((run lab ops).removeNode v).predecessors b = some l → v ∉ l) ∧
      (((run lab ops).removeNode v).successors b = some l → v ∉ l) ∧
      (ed ∈ ((run lab ops).removeNode v).edges → ed.v ≠ v ∧ ed.w ≠ v)) ∧
    ((run lab ops).hasNode v = false → (run lab ops).removeNode v = run lab ops) := by
  have hB : InvB (run lab ops) := invB_run lab ops hclean
  constructor
  · intro hv
    obtain ⟨hB', hnodes, hend⟩ := removeNode_clean hB hv
    refine ⟨?_, ?_, ?_, ?_⟩
    · show mhas ((run lab ops).removeNode v).nodesT v = false
      rw [hnodes]
      simp [mhas, mget_mdel_self]
    · intro hpred hvl
      simp only [Graph.predecessors] at hpred
      rcases hm : mget ((run lab ops).removeNode v).predsT b with _ | m
      · rw [hm] at hpred
        cases hpred
      · rw [hm] at hpred
        have hl : mkeys m = l := by
          injection hpred
        rw [← hl] at hvl
        obtain ⟨c, hcm⟩ := mem_mkeys_iff.mp hvl
        obtain ⟨-, hedge⟩ := hB'.core.preds_sound b m hm (v, c) hcm
        exact (hend _ (mem_of_mget hedge)).1 rfl
    · intro hsucc hvl
      simp only [Graph.successors] at hsucc
      rcases hm : mget ((run lab ops).removeNode v).succsT b with _ | m
      · rw [hm] at hsucc
        cases hsucc
      · rw [hm] at hsucc
        have hl : mkeys m = l := by
          injection hsucc
        rw [← hl] at hvl
        obtain ⟨c, hcm⟩ := mem_mkeys_iff.mp hvl
        obtain ⟨-, hedge⟩ := hB'.core.succs_sound b m hm (v, c) hcm
        exact (hend _ (mem_of_mget hedge)).2 rfl
    · intro hed
      rcases List.mem_map.mp hed with ⟨p, hp, hpe⟩
      have hpv := hend p hp
      rw [hpe] at hpv
      exact hpv
  · intro hv
    exact removeNode_of_not_has hv

theorem c6_removeNode_clean_witness :
    (∀ op ∈ ([Op.setEdge ['a'] ['b'] none] : List (Op Nat Nat)), Op.clean op) ∧
    (((run none [Op.setEdge ['a'] ['b'] none] : Graph Nat Nat).hasNode ['a'] = true →
      ((run none [Op.setEdge ['a'] ['b'] none] : Graph Nat Nat).removeNode ['a']).hasNode ['a'] = false ∧
      (((run none [Op.setEdge ['a'] ['b'] none] : Graph Nat Nat).removeNode ['a']).predecessors ['b'] = some [['a']] → ['a'] ∉ [['a']]) ∧
      (((run none [Op.setEdge ['a'] ['b'] none] : Graph Nat Nat).removeNode ['a']).successors ['b'] = some [['a']] → ['a'] ∉ [['a']]) ∧
      ((⟨['a'], ['b']⟩ : IEdge) ∈ ((run none [Op.setEdge ['a'] ['b'] none] : Graph Nat Nat).removeNode ['a']).edges →
        (⟨['a'], ['b']⟩ : IEdge).v ≠ ['a'] ∧ (⟨['a'], ['b']⟩ : IEdge).w ≠ ['a'])) ∧
     ((run none [Op.setEdge ['a'] ['b'] none] : Graph Nat Nat).hasNode ['a'] = false →
      (run none [Op.setEdge ['a'] ['b'] none] : Graph Nat Nat).removeNode ['a'] =
        (run none [Op.setEdge ['a'] ['b'] none] : Graph Nat Nat))) :=
  ⟨by decide,
   c6_removeNode_clean none [Op.setEdge ['a'] ['b'] none] ['a'] ['b'] [['a']]
     ⟨['a'], ['b']⟩ (by decide)⟩
